import Mathlib

/-!
# Verification of the website-scraper crawl engine

Shallow embedding of the repository's Python sources:
* `src/main.py` — `WebsiteScraper` (crawl engine, dedup gate, link filter),
* `src/content_savers/base_saver.py` — `ContentSaver.get_base_filename`,
* `src/content_savers/{markdown,html,pdf}_saver.py` — per-format savers.

Strings are modelled as `List Char`.  The pieces of Python's
`urllib.parse` that the source calls (`urlparse`, `geturl`) are modelled
faithfully after CPython's `urllib/parse.py`; `urljoin` and page
contents are kept abstract (parameters of the model), since the claims
never depend on their internals.

The concurrent crawl (`worker` / `crawl_impl` / `run`) is modelled as a
small-step transition system whose atomic steps are exactly the regions
of the Python code between `await` suspension points: under asyncio's
cooperative scheduling a coroutine cannot be preempted between awaits,
so in particular the membership test `url in self.visited` and the
insertion `self.visited.add(url)` (main.py lines 134–136, no `await`
in between) form one atomic step.
-/

/-- Strings of the embedded program are lists of characters. -/
abbrev Str := List Char

/-- Convert a Lean string literal to the model's string type. -/
def str (s : String) : Str := s.data

namespace UrlLib

/-!
Model of `urllib.parse` as used by the source, translated from
CPython's `urllib/parse.py` (`urlsplit`, `urlparse`, `_splitparams`,
`_splitnetloc`, `urlunsplit`, `urlunparse`).  Control-character
sanitisation and the IPv6-bracket `ValueError` check are omitted: the
claims involve no such inputs.
-/

/-- Result of `urllib.parse.urlparse`: the 6-tuple
`(scheme, netloc, path, params, query, fragment)`. -/
structure ParseResult where
  scheme : Str
  netloc : Str
  path : Str
  params : Str
  query : Str
  fragment : Str
deriving DecidableEq, Repr

/-- Characters allowed in a URL scheme (CPython's `scheme_chars`):
letters, digits, `+`, `-`, `.`. -/
def schemeChar (c : Char) : Bool :=
  c.isAlphanum || c == '+' || c == '-' || c == '.'

/-- Split `url[:i], url[i+1:]` at the first occurrence of `sep`
(Python's `url.split(sep, 1)`); if `sep` does not occur the second
component is empty and the first is the whole string. -/
def splitFirst (sep : Char) (u : Str) : Str × Str :=
  let pre := u.takeWhile (fun c => c ≠ sep)
  if pre.length = u.length then (u, []) else (pre, u.drop (pre.length + 1))

/-- Scheme extraction of `urlsplit`: if the text before the first `:`
is a non-empty valid scheme starting with a letter, split it off and
lowercase it; otherwise no scheme. -/
def splitScheme (u : Str) : Str × Str :=
  let pre := u.takeWhile (fun c => c ≠ ':')
  if pre.length < u.length ∧ pre ≠ [] ∧ (pre.headD ' ').isAlpha ∧ pre.all schemeChar then
    (pre.map Char.toLower, u.drop (pre.length + 1))
  else
    ([], u)

/-- `_splitnetloc`: if the (scheme-stripped) URL starts with `//`, the
netloc extends to the first `/`, `?` or `#`; the delimiter stays in the
remainder. -/
def splitNetloc (u : Str) : Str × Str :=
  match u with
  | '/' :: '/' :: rest =>
      let nl := rest.takeWhile (fun c => c ≠ '/' ∧ c ≠ '?' ∧ c ≠ '#')
      (nl, rest.drop nl.length)
  | _ => ([], u)

/-- `urlsplit` (without params): scheme, then netloc, then fragment at
the first `#`, then query at the first `?` of what precedes it. -/
def urlsplit (u : Str) : Str × Str × Str × Str × Str :=
  let (scheme, rest1) := splitScheme u
  let (netloc, rest2) := splitNetloc rest1
  let (rest3, fragment) := splitFirst '#' rest2
  let (path, query) := splitFirst '?' rest3
  (scheme, netloc, path, query, fragment)

/-- `_splitparams`: split `;params` off the last path segment. -/
def splitParams (p : Str) : Str × Str :=
  if ';' ∈ p then
    if '/' ∈ p then
      let tailSeg := (p.reverse.takeWhile (fun c => c ≠ '/')).reverse
      if ';' ∈ tailSeg then
        let pre := p.take (p.length - tailSeg.length)
        let (a, b) := splitFirst ';' tailSeg
        (pre ++ a, b)
      else (p, [])
    else splitFirst ';' p
  else (p, [])

/-- `urllib.parse.urlparse`. -/
def urlparse (u : Str) : ParseResult :=
  let (scheme, netloc, path0, query, fragment) := urlsplit u
  let (path, params) := splitParams path0
  ⟨scheme, netloc, path, params, query, fragment⟩

/-- `urlunsplit`. -/
def urlunsplit (scheme netloc path query fragment : Str) : Str :=
  let u1 :=
    if netloc ≠ [] ∨ (path ≠ [] ∧ path.take 2 = str "//") then
      (str "//") ++ netloc ++
        (if path ≠ [] ∧ path.take 1 ≠ str "/" then '/' :: path else path)
    else path
  let u2 := if scheme ≠ [] then scheme ++ ':' :: u1 else u1
  let u3 := if query ≠ [] then u2 ++ '?' :: query else u2
  if fragment ≠ [] then u3 ++ '#' :: fragment else u3

/-- `urlunparse`, i.e. `ParseResult.geturl`. -/
def geturl (r : ParseResult) : Str :=
  let p := if r.params ≠ [] then r.path ++ ';' :: r.params else r.path
  urlunsplit r.scheme r.netloc p r.query r.fragment

end UrlLib

open UrlLib

namespace Scraper

/-- `WebsiteScraper.get_domain`: the netloc of a URL. -/
def get_domain (url : Str) : Str := (urlparse url).netloc

/-- `WebsiteScraper.is_internal_link`: true iff the link's netloc is
empty or equal to the crawl domain (main.py lines 111–124). -/
def is_internal_link (link domain : Str) : Bool :=
  (urlparse link).netloc = [] ∨ (urlparse link).netloc = domain

/-- The canonicalisation applied to every joined href in `crawl_impl`
(line 149): `urlparse(joined)._replace(fragment='').geturl()`. -/
def stripFragment (u : Str) : Str :=
  geturl { urlparse u with fragment := [] }

end Scraper

namespace Savers

open Scraper

/-- Python `path.split(sep)` semantics on the model's strings:
`splitOn sep []` is `[[]]`, separators produce empty segments. -/
def splitOn (sep : Char) : Str → List Str
  | [] => [[]]
  | c :: cs =>
      match splitOn sep cs with
      | [] => [[]]
      | r :: rs => if c = sep then [] :: r :: rs else (c :: r) :: rs

/-- `urlparse(url).path.split('/')[-1]` — the last chunk of the split. -/
def lastSegment (p : Str) : Str := (splitOn '/' p).getLastD []

/-- The six random digit characters produced by
`''.join([str(random.randint(0, 9)) for _ in range(6)])`; the
randomness source is a parameter `rand`. -/
def digitsOf (rand : Fin 6 → Fin 10) : Str :=
  (List.finRange 6).map (fun i => Nat.digitChar (rand i))

/-- `ContentSaver.get_base_filename` (base_saver.py lines 22–38):
the last `/`-segment of the URL's parsed path, or `index_` followed by
six random digits when that segment is empty. -/
def get_base_filename (rand : Fin 6 → Fin 10) (url : Str) : Str :=
  let base := lastSegment (urlparse url).path
  if base = [] then str "index_" ++ digitsOf rand else base

/-- A file written by a saver: its path and contents. -/
structure WriteOp where
  path : Str
  content : Str
deriving DecidableEq

/-- `MarkdownSaver.save`: writes `<dir>/<base>.md` containing
`# <url>`, a blank line, and the markdownify conversion (`mdify` is the
external `markdownify` collaborator). -/
def markdownWrite (mdify : Str → Str) (rand : Fin 6 → Fin 10)
    (url html dir : Str) : WriteOp :=
  ⟨dir ++ '/' :: get_base_filename rand url ++ str ".md",
   str "# " ++ url ++ str "\n\n" ++ mdify html⟩

/-- `HTMLSaver.save`: writes `<dir>/<base>.html` containing the raw
fetched markup verbatim. -/
def htmlWrite (rand : Fin 6 → Fin 10) (url html dir : Str) : WriteOp :=
  ⟨dir ++ '/' :: get_base_filename rand url ++ str ".html", html⟩

/-- `PDFSaver.save`: writes `<dir>/<base>.pdf`; the rendered bytes come
from the browser session (`pdfRender`, external collaborator). -/
def pdfWrite (pdfRender : Str → Str) (rand : Fin 6 → Fin 10)
    (url html dir : Str) : WriteOp :=
  ⟨dir ++ '/' :: get_base_filename rand url ++ str ".pdf", pdfRender html⟩

/-- The keys of `WebsiteScraper.savers`. -/
def saverKeys : List Str := [str "markdown", str "pdf", str "html"]

/-- Dispatch `self.savers[format].save(...)` for a key of `savers`. -/
def saverWrite (mdify pdfRender : Str → Str) (rand : Fin 6 → Fin 10)
    (fmt url html dir : Str) : WriteOp :=
  if fmt = str "markdown" then markdownWrite mdify rand url html dir
  else if fmt = str "pdf" then pdfWrite pdfRender rand url html dir
  else htmlWrite rand url html dir

/-- `WebsiteScraper.save_content` (main.py lines 95–109): iterate over
the configured formats; each known format's saver is invoked inside
`try/except`, so a raising saver (`fail fmt = true`, the per-call
outcome of the external file system or renderer) is logged and skipped
while the loop continues.  `rands` supplies the fresh random digits for
each saver invocation.  Returns the files written. -/
def save_content (mdify pdfRender : Str → Str) (rands : ℕ → Fin 6 → Fin 10)
    (fail : Str → Bool) (url html dir : Str) :
    List Str → ℕ → List WriteOp
  | [], _ => []
  | fmt :: fs, i =>
      if fmt ∈ saverKeys then
        if fail fmt then
          save_content mdify pdfRender rands fail url html dir fs (i + 1)
        else
          saverWrite mdify pdfRender (rands i) fmt url html dir ::
            save_content mdify pdfRender rands fail url html dir fs (i + 1)
      else
        save_content mdify pdfRender rands fail url html dir fs (i + 1)

end Savers

namespace Crawl

open Scraper

/-- The crawl environment: the external collaborators of the engine.
`hrefs u` is the list of `href` attributes of the anchors on page `u`
(the Page Fetcher / BeautifulSoup collaborators), `resolve` is
`urllib.parse.urljoin`, `startUrl` the seed and `nWorkers` the
`--concurrency` value (the number of workers created in `run`). -/
structure Env where
  hrefs : Str → List Str
  resolve : Str → Str → Str
  startUrl : Str
  nWorkers : ℕ

/-- The crawl domain: `self.domain = get_domain(start_url)`. -/
def Env.domain (e : Env) : Str := get_domain e.startUrl

/-- The canonical URL computed for one href in `crawl_impl` lines
147–149: join against the base URL, then strip the fragment. -/
def Env.canon (e : Env) (base href : Str) : Str :=
  stripFragment (e.resolve base href)

/-- A worker's position between `await` suspension points.
`idle`: blocked at `to_visit.get()`.
`gotUrl u`: dequeued `u`, about to run the dedup gate (lines 134–136).
`fetching u`: won the claim, suspended at `page.goto`/`content`/save.
`enqueuing u p`: links extracted, `p` the hrefs still to process in the
anchor loop (lines 145–151). -/
inductive Phase where
  | idle
  | gotUrl (url : Str)
  | fetching (url : Str)
  | enqueuing (url : Str) (pending : List Str)
deriving DecidableEq

/-- The shared state of a crawl run: `self.visited`, `self.to_visit`
(its FIFO content plus the put/task_done counters that drive
`Queue.join`), and each worker's phase. -/
structure CrawlState where
  visited : List Str
  queue : List Str
  workers : List Phase
  puts : ℕ
  dones : ℕ
deriving DecidableEq

/-- The state after `run` seeds the frontier (line 215): empty visited
set, the seed as only queue entry (one `put`), all workers idle. -/
def initState (e : Env) : CrawlState :=
  ⟨[], [e.startUrl], List.replicate e.nWorkers .idle, 1, 0⟩

/-- Scheduler choices: which worker runs its next atomic region, and
for a fetch whether the navigation succeeds or raises
(timeout/navigation error caught at line 152). -/
inductive Action where
  | dequeue (w : ℕ)
  | claim (w : ℕ)
  | fetchOk (w : ℕ)
  | fetchFail (w : ℕ)
  | enqStep (w : ℕ)
  | finish (w : ℕ)
deriving DecidableEq

/-- One atomic step of the crawl.  Each case is a region of Python code
with no internal `await`:
* `dequeue`: `url = await self.to_visit.get()` returns.
* `claim`: the dedup gate — `if url in self.visited: return` (then
  `task_done`, back to `get`) else `self.visited.add(url)` (then
  suspend at `page.goto`).  Check and insert are one step because no
  `await` separates lines 134 and 136.
* `fetchOk`: `goto`/`wait_for_load_state`/`content`/`save_content`
  complete; the anchor loop starts with all the page's hrefs pending.
* `fetchFail`: an exception reaches the handler at line 152; the URL is
  abandoned, `task_done` runs, the worker loops to `get`.
* `enqStep`: one iteration of the anchor loop — canonicalise the href
  and `put` it iff it passes `is_internal_link` and is unvisited.
* `finish`: the loop ends, `crawl_impl` returns, `task_done` runs. -/
def step (e : Env) (s : CrawlState) : Action → Option CrawlState
  | .dequeue w =>
      match s.workers.get? w, s.queue with
      | some .idle, u :: rest =>
          some { s with queue := rest, workers := s.workers.set w (.gotUrl u) }
      | _, _ => none
  | .claim w =>
      match s.workers.get? w with
      | some (.gotUrl u) =>
          if u ∈ s.visited then
            some { s with workers := s.workers.set w .idle, dones := s.dones + 1 }
          else
            some { s with visited := u :: s.visited,
                          workers := s.workers.set w (.fetching u) }
      | _ => none
  | .fetchOk w =>
      match s.workers.get? w with
      | some (.fetching u) =>
          some { s with workers := s.workers.set w (.enqueuing u (e.hrefs u)) }
      | _ => none
  | .fetchFail w =>
      match s.workers.get? w with
      | some (.fetching u) =>
          some { s with workers := s.workers.set w .idle, dones := s.dones + 1 }
      | _ => none
  | .enqStep w =>
      match s.workers.get? w with
      | some (.enqueuing u (h :: p)) =>
          let c := e.canon u h
          if is_internal_link c e.domain = true ∧ c ∉ s.visited then
            some { s with queue := s.queue ++ [c], puts := s.puts + 1,
                          workers := s.workers.set w (.enqueuing u p) }
          else
            some { s with workers := s.workers.set w (.enqueuing u p) }
      | _ => none
  | .finish w =>
      match s.workers.get? w with
      | some (.enqueuing u []) =>
          some { s with workers := s.workers.set w .idle, dones := s.dones + 1 }
      | _ => none

/-- Run a list of scheduler choices from a state; `none` if some choice
is not enabled. -/
def exec (e : Env) : CrawlState → List Action → Option CrawlState
  | s, [] => some s
  | s, a :: acts =>
      match step e s a with
      | none => none
      | some s' => exec e s' acts

/-- A worker phase that holds a claimed-or-dequeued URL. -/
def Phase.heldUrl : Phase → Option Str
  | .idle => none
  | .gotUrl u => some u
  | .fetching u => some u
  | .enqueuing u _ => some u

/-- The URLs currently held by busy workers. -/
def heldUrls (s : CrawlState) : List Str :=
  s.workers.filterMap Phase.heldUrl

/-- 1 if the worker is busy (holds a URL), 0 if idle. -/
def heldBit (ph : Phase) : ℕ := if (Phase.heldUrl ph).isSome then 1 else 0

/-- Number of busy (non-idle) workers. -/
def busy (s : CrawlState) : ℕ := (s.workers.map heldBit).sum

/-- All URLs currently known to the run: visited, queued, or held. -/
def known (s : CrawlState) : List Str :=
  s.visited ++ s.queue ++ heldUrls s

/-- Quiescence: the frontier is drained and every worker idles at
`get()`.  This is the situation in which `to_visit.join()` has
returned and `run` proceeds to cancel the workers. -/
def quiescent (s : CrawlState) : Prop :=
  s.queue = [] ∧ ∀ ph ∈ s.workers, ph = Phase.idle

instance (s : CrawlState) : Decidable (quiescent s) := by
  unfold quiescent; infer_instance

/-- Is this scheduler choice a failing fetch? -/
def Action.isFetchFail : Action → Bool
  | .fetchFail _ => true
  | _ => false

/-- Is this scheduler choice a dequeue? -/
def Action.isDequeue : Action → Bool
  | .dequeue _ => true
  | _ => false

/-- A schedule with no fetch failures (every page load succeeds). -/
def noFail (acts : List Action) : Prop :=
  ∀ a ∈ acts, a.isFetchFail = false

instance (acts : List Action) : Decidable (noFail acts) := by
  unfold noFail; infer_instance

/-- Does this step claim URL `u` and win (insert it)?  Wins are the
grants of the dedup gate. -/
def isWin (s : CrawlState) (a : Action) (u : Str) : Bool :=
  match a with
  | .claim w =>
      match s.workers.get? w with
      | some (.gotUrl v) => v = u ∧ u ∉ s.visited
      | _ => false
  | _ => false

/-- Does this step run the dedup gate on URL `u` (win or lose)? -/
def isAttempt (s : CrawlState) (a : Action) (u : Str) : Bool :=
  match a with
  | .claim w =>
      match s.workers.get? w with
      | some (.gotUrl v) => v = u
      | _ => false
  | _ => false

/-- Number of dedup-gate wins for `u` along a schedule. -/
def wins (e : Env) : CrawlState → List Action → Str → ℕ
  | _, [], _ => 0
  | s, a :: acts, u =>
      match step e s a with
      | none => 0
      | some s' => (if isWin s a u then 1 else 0) + wins e s' acts u

/-- Number of dedup-gate attempts on `u` along a schedule. -/
def attempts (e : Env) : CrawlState → List Action → Str → ℕ
  | _, [], _ => 0
  | s, a :: acts, u =>
      match step e s a with
      | none => 0
      | some s' => (if isAttempt s a u then 1 else 0) + attempts e s' acts u

/-- Number of dequeues along a schedule. -/
def dequeues (e : Env) : CrawlState → List Action → ℕ
  | _, [] => 0
  | s, a :: acts =>
      match step e s a with
      | none => 0
      | some s' => (if a.isDequeue then 1 else 0) + dequeues e s' acts

end Crawl

namespace Crawl

open Scraper

/-- The URLs the crawl can reach: the seed, plus — for any reachable
page — the canonical form of each of its hrefs that passes the
same-domain filter.  This is the "transitive closure of reachable
same-domain URLs" of the coordinator's contract. -/
inductive Reaches (e : Env) : Str → Prop
  | seed : Reaches e e.startUrl
  | link {u h} : Reaches e u → h ∈ e.hrefs u →
      is_internal_link (e.canon u h) e.domain = true →
      Reaches e (e.canon u h)

/-- Termination potential of one unclaimed reachable URL. -/
def phiW (e : Env) (u : Str) : ℕ := 5 * (e.hrefs u).length + 1

/-- Termination potential of one worker phase. -/
def wWork (e : Env) : Phase → ℕ
  | .idle => 0
  | .gotUrl _ => 3
  | .fetching u => 5 * (e.hrefs u).length + 2
  | .enqueuing _ p => 5 * p.length + 1

/-- Termination measure: every enabled step strictly decreases it.
`R` is any duplicate-free list covering the reachable URLs. -/
def measureFn (e : Env) (R : List Str) (s : CrawlState) : ℕ :=
  ((R.filter (fun u => decide (u ∉ s.visited))).map (phiW e)).sum
    + 4 * s.queue.length + (s.workers.map (wWork e)).sum

/-- Per-worker part of the run invariant: held URLs are reachable,
claimed URLs are already in the visited set, and the pending href list
of the anchor loop is a suffix of the page's hrefs. -/
def PhaseInv (e : Env) (s : CrawlState) : Phase → Prop
  | .idle => True
  | .gotUrl u => Reaches e u
  | .fetching u => Reaches e u ∧ u ∈ s.visited
  | .enqueuing u p => Reaches e u ∧ u ∈ s.visited ∧ ∃ pre, e.hrefs u = pre ++ p

/-- The run invariant: worker-pool size is fixed, the `Queue.join`
counter accounting holds (`puts = dones + pending + in-flight`), the
visited set has no duplicates, and everything known is reachable. -/
def Inv (e : Env) (s : CrawlState) : Prop :=
  s.workers.length = e.nWorkers
  ∧ s.puts = s.dones + s.queue.length + busy s
  ∧ s.visited.Nodup
  ∧ (∀ u ∈ s.visited, Reaches e u)
  ∧ (∀ u ∈ s.queue, Reaches e u)
  ∧ (∀ ph ∈ s.workers, PhaseInv e s ph)

/-- Same-domain invariant: every URL in the visited set, the frontier
or a worker's hands passes `is_internal_link` against the crawl
domain. -/
def InternalInv (e : Env) (s : CrawlState) : Prop :=
  ∀ u ∈ known s, is_internal_link u e.domain = true

/-- Link-coverage invariant (failure-free runs): for every visited
page, either a worker is still mid-processing it, or every internal
canonical link of the page is already known to the run. -/
def CovInv (e : Env) (s : CrawlState) : Prop :=
  ∀ u ∈ s.visited,
    (∃ w, s.workers.get? w = some (.fetching u))
    ∨ (∃ w pre p, s.workers.get? w = some (.enqueuing u p)
        ∧ e.hrefs u = pre ++ p
        ∧ ∀ h ∈ pre, is_internal_link (e.canon u h) e.domain = true →
            e.canon u h ∈ known s)
    ∨ (∀ h ∈ e.hrefs u, is_internal_link (e.canon u h) e.domain = true →
        e.canon u h ∈ known s)

end Crawl

namespace Scraper

/-- Two URLs that agree on every parsed component except the
fragment. -/
def sameExceptFragment (u1 u2 : Str) : Prop :=
  (urlparse u1).scheme = (urlparse u2).scheme
  ∧ (urlparse u1).netloc = (urlparse u2).netloc
  ∧ (urlparse u1).path = (urlparse u2).path
  ∧ (urlparse u1).params = (urlparse u2).params
  ∧ (urlparse u1).query = (urlparse u2).query

instance (u1 u2 : Str) : Decidable (sameExceptFragment u1 u2) := by
  unfold sameExceptFragment
  infer_instance

end Scraper

namespace Witness

open Scraper Crawl Savers

def A0 : Str := str "https://example.com/a"

def B0 : Str := str "https://example.com/b"

def M0 : Str := str "mailto:someone@example.com"

/-- A one-page site with no outbound links, crawled by one worker. -/
def e0 : Env := ⟨fun _ => [], fun _ h => h, A0, 1⟩

/-- The only maximal schedule of the `e0` crawl. -/
def tr0 : List Action := [.dequeue 0, .claim 0, .fetchOk 0, .finish 0]

/-- Its end state: seed visited, frontier drained, `join` satisfied. -/
def s0 : CrawlState := ⟨[A0], [], [.idle], 1, 1⟩

def R0 : List Str := [A0]

/-- A seed page linking to `B0` twice, with two workers: both end up
racing the dedup gate on `B0`. -/
def e1 : Env := ⟨fun u => if u = A0 then [B0, B0] else [], fun _ h => h, A0, 2⟩

def tr1 : List Action :=
  [.dequeue 0, .claim 0, .fetchOk 0, .enqStep 0, .enqStep 0, .finish 0,
   .dequeue 0, .dequeue 1, .claim 0, .claim 1]

/-- Mid-run states of the `e0` crawl, for the single-step claims. -/
def sA : CrawlState := ⟨[A0], [], [.fetching A0], 1, 0⟩

def sB : CrawlState := ⟨[A0], [], [.enqueuing A0 []], 1, 0⟩

/-- A page carrying a `mailto:` anchor. -/
def eM : Env := ⟨fun _ => [M0], fun _ h => h, A0, 1⟩

/-- Worker 0 in the anchor loop with the `mailto:` href pending. -/
def sM : CrawlState := ⟨[A0], [], [.enqueuing A0 [M0]], 1, 0⟩

/-- Worker 0 has dequeued the `mailto:` URL, about to claim it. -/
def sG : CrawlState := ⟨[A0], [], [.gotUrl M0], 1, 0⟩

def rZero : Fin 6 → Fin 10 := fun _ => 0

def F1 : Str := str "https://example.com/a#sec1"

def F2 : Str := str "https://example.com/a#sec2"

end Witness

namespace Crawl

open Scraper

/-- List helper: a member of `l` either survives `l.set w x` or is the
element at position `w`. -/
theorem mem_set_or_get {α} : ∀ (l : List α) (w : ℕ) (x a : α),
    a ∈ l → a ∈ l.set w x ∨ l.get? w = some a
  | [], _, _, a, h => absurd h (List.not_mem_nil a)
  | y :: ys, 0, x, a, h => by
      rcases List.mem_cons.mp h with rfl | hm
      · exact Or.inr rfl
      · exact Or.inl (List.mem_cons_of_mem _ hm)
  | y :: ys, w + 1, x, a, h => by
      rcases List.mem_cons.mp h with rfl | hm
      · exact Or.inl (List.mem_cons_self _ _)
      · rcases mem_set_or_get ys w x a hm with h1 | h1
        · exact Or.inl (List.mem_cons_of_mem _ h1)
        · exact Or.inr h1

/-- List helper: summing a mapped function over `l.set w x`. -/
theorem sum_map_set {α} (f : α → ℕ) : ∀ (l : List α) (w : ℕ) (x y : α),
    l.get? w = some y →
    ((l.set w x).map f).sum + f y = (l.map f).sum + f x
  | [], _, _, _, h => by cases h
  | z :: zs, 0, x, y, h => by
      cases h
      simp [List.set]
      ring
  | z :: zs, w + 1, x, y, h => by
      have := sum_map_set f zs w x y h
      simp only [List.set, List.map_cons, List.sum_cons]
      omega

/-- Inversion principle for `step`: the eight ways a step can fire. -/
theorem step_cases {e : Env} {s s' : CrawlState} {a : Action}
    (h : step e s a = some s') :
    (∃ w u rest, a = .dequeue w ∧ s.workers.get? w = some .idle ∧ s.queue = u :: rest
      ∧ s' = { s with queue := rest, workers := s.workers.set w (.gotUrl u) })
    ∨ (∃ w u, a = .claim w ∧ s.workers.get? w = some (.gotUrl u) ∧ u ∈ s.visited
      ∧ s' = { s with workers := s.workers.set w .idle, dones := s.dones + 1 })
    ∨ (∃ w u, a = .claim w ∧ s.workers.get? w = some (.gotUrl u) ∧ u ∉ s.visited
      ∧ s' = { s with visited := u :: s.visited, workers := s.workers.set w (.fetching u) })
    ∨ (∃ w u, a = .fetchOk w ∧ s.workers.get? w = some (.fetching u)
      ∧ s' = { s with workers := s.workers.set w (.enqueuing u (e.hrefs u)) })
    ∨ (∃ w u, a = .fetchFail w ∧ s.workers.get? w = some (.fetching u)
      ∧ s' = { s with workers := s.workers.set w .idle, dones := s.dones + 1 })
    ∨ (∃ w u hr p, a = .enqStep w ∧ s.workers.get? w = some (.enqueuing u (hr :: p))
      ∧ is_internal_link (e.canon u hr) e.domain = true ∧ e.canon u hr ∉ s.visited
      ∧ s' = { s with queue := s.queue ++ [e.canon u hr], puts := s.puts + 1,
                      workers := s.workers.set w (.enqueuing u p) })
    ∨ (∃ w u hr p, a = .enqStep w ∧ s.workers.get? w = some (.enqueuing u (hr :: p))
      ∧ ¬(is_internal_link (e.canon u hr) e.domain = true ∧ e.canon u hr ∉ s.visited)
      ∧ s' = { s with workers := s.workers.set w (.enqueuing u p) })
    ∨ (∃ w u, a = .finish w ∧ s.workers.get? w = some (.enqueuing u [])
      ∧ s' = { s with workers := s.workers.set w .idle, dones := s.dones + 1 }) := by
  cases a with
  | dequeue w =>
      simp only [step] at h
      split at h
      case _ u rest hw hq =>
        cases h
        exact Or.inl ⟨w, u, rest, rfl, hw, hq, rfl⟩
      case _ => cases h
  | claim w =>
      simp only [step] at h
      split at h
      case _ u hw =>
        split at h
        · cases h
          exact Or.inr (Or.inl ⟨w, u, rfl, hw, by assumption, rfl⟩)
        · cases h
          exact Or.inr (Or.inr (Or.inl ⟨w, u, rfl, hw, by assumption, rfl⟩))
      case _ => cases h
  | fetchOk w =>
      simp only [step] at h
      split at h
      case _ u hw =>
        cases h
        exact Or.inr (Or.inr (Or.inr (Or.inl ⟨w, u, rfl, hw, rfl⟩)))
      case _ => cases h
  | fetchFail w =>
      simp only [step] at h
      split at h
      case _ u hw =>
        cases h
        exact Or.inr (Or.inr (Or.inr (Or.inr (Or.inl ⟨w, u, rfl, hw, rfl⟩))))
      case _ => cases h
  | enqStep w =>
      simp only [step] at h
      split at h
      case _ u hr p hw =>
        split at h
        · cases h
          exact Or.inr (Or.inr (Or.inr (Or.inr (Or.inr (Or.inl
            ⟨w, u, hr, p, rfl, hw, (by assumption : _ ∧ _).1, (by assumption : _ ∧ _).2, rfl⟩)))))
        · cases h
          exact Or.inr (Or.inr (Or.inr (Or.inr (Or.inr (Or.inr (Or.inl
            ⟨w, u, hr, p, rfl, hw, by assumption, rfl⟩))))))
      case _ => cases h
  | finish w =>
      simp only [step] at h
      split at h
      case _ u hw =>
        cases h
        exact Or.inr (Or.inr (Or.inr (Or.inr (Or.inr (Or.inr (Or.inr ⟨w, u, rfl, hw, rfl⟩))))))
      case _ => cases h

/-- The worker-pool size never changes. -/
theorem step_workers_length {e : Env} {s s' : CrawlState} {a : Action}
    (h : step e s a = some s') : s'.workers.length = s.workers.length := by
  rcases step_cases h with
      ⟨w, u, rest, ha, hw, hq, rfl⟩ | ⟨w, u, ha, hw, hv, rfl⟩ | ⟨w, u, ha, hw, hv, rfl⟩ |
      ⟨w, u, ha, hw, rfl⟩ | ⟨w, u, ha, hw, rfl⟩ | ⟨w, u, hr, p, ha, hw, hint, hnv, rfl⟩ |
      ⟨w, u, hr, p, ha, hw, hni, rfl⟩ | ⟨w, u, ha, hw, rfl⟩ <;>
    simp [List.length_set]

/-- The visited set only grows: either unchanged, or one fresh URL is
prepended by a winning claim. -/
theorem step_visited_cases {e : Env} {s s' : CrawlState} {a : Action}
    (h : step e s a = some s') :
    s'.visited = s.visited ∨ ∃ u, u ∉ s.visited ∧ s'.visited = u :: s.visited := by
  rcases step_cases h with
      ⟨w, u, rest, ha, hw, hq, rfl⟩ | ⟨w, u, ha, hw, hv, rfl⟩ | ⟨w, u, ha, hw, hv, rfl⟩ |
      ⟨w, u, ha, hw, rfl⟩ | ⟨w, u, ha, hw, rfl⟩ | ⟨w, u, hr, p, ha, hw, hint, hnv, rfl⟩ |
      ⟨w, u, hr, p, ha, hw, hni, rfl⟩ | ⟨w, u, ha, hw, rfl⟩
  · exact Or.inl rfl
  · exact Or.inl rfl
  · exact Or.inr ⟨u, hv, rfl⟩
  · exact Or.inl rfl
  · exact Or.inl rfl
  · exact Or.inl rfl
  · exact Or.inl rfl
  · exact Or.inl rfl

/-- Monotonicity of the visited set over a single step. -/
theorem step_visited_sub {e : Env} {s s' : CrawlState} {a : Action}
    (h : step e s a = some s') : s.visited ⊆ s'.visited := by
  rcases step_visited_cases h with heq | ⟨u, _, heq⟩
  · exact heq ▸ List.Subset.refl _
  · exact heq ▸ List.subset_cons_self _ _

/-- A visited URL is never enqueued again: over any step, the number of
its copies in the frontier cannot increase. -/
theorem step_queue_count {e : Env} {s s' : CrawlState} {a : Action}
    (h : step e s a = some s') (u : Str) (hu : u ∈ s.visited) :
    s'.queue.count u ≤ s.queue.count u := by
  rcases step_cases h with
      ⟨w, v, rest, ha, hw, hq, rfl⟩ | ⟨w, v, ha, hw, hv, rfl⟩ | ⟨w, v, ha, hw, hv, rfl⟩ |
      ⟨w, v, ha, hw, rfl⟩ | ⟨w, v, ha, hw, rfl⟩ | ⟨w, v, hr, p, ha, hw, hint, hnv, rfl⟩ |
      ⟨w, v, hr, p, ha, hw, hni, rfl⟩ | ⟨w, v, ha, hw, rfl⟩
  · simp only [hq, List.count_cons]
    omega
  · exact le_refl _
  · exact le_refl _
  · exact le_refl _
  · exact le_refl _
  · have hne : (e.canon v hr == u) = false := by
      refine beq_eq_false_iff_ne.mpr ?_
      intro hc
      exact hnv (hc ▸ hu)
    simp [List.count_append, List.count_cons, hne]
  · exact le_refl _
  · exact le_refl _

end Crawl

namespace Crawl

open Scraper

theorem heldBit_idle : heldBit .idle = 0 := rfl

theorem heldBit_gotUrl (u : Str) : heldBit (.gotUrl u) = 1 := rfl

theorem heldBit_fetching (u : Str) : heldBit (.fetching u) = 1 := rfl

theorem heldBit_enqueuing (u : Str) (p : List Str) : heldBit (.enqueuing u p) = 1 := rfl

/-- Monotonicity of `PhaseInv` in the visited set. -/
theorem phaseInv_mono {e : Env} {s s' : CrawlState}
    (hsub : s.visited ⊆ s'.visited) {ph : Phase} (h : PhaseInv e s ph) :
    PhaseInv e s' ph := by
  cases ph with
  | idle => trivial
  | gotUrl u => exact h
  | fetching u => exact ⟨h.1, hsub h.2⟩
  | enqueuing u p => exact ⟨h.1, hsub h.2.1, h.2.2⟩

/-- Effect on `busy` of replacing the phase of worker `w`. -/
theorem busy_set {s : CrawlState} {w : ℕ} {ph : Phase}
    (hw : s.workers.get? w = some ph) (x : Phase) :
    ((s.workers.set w x).map heldBit).sum + heldBit ph
      = busy s + heldBit x :=
  sum_map_set heldBit s.workers w x ph hw

/-- A worker's bit is a lower bound for `busy`. -/
theorem busy_lower {s : CrawlState} {w : ℕ} {ph : Phase}
    (hw : s.workers.get? w = some ph) : heldBit ph ≤ busy s :=
  List.single_le_sum (fun x _ => Nat.zero_le x) _
    (List.mem_map_of_mem heldBit (List.get?_mem hw))

/-- The run invariant is preserved by every step. -/
theorem inv_step {e : Env} {s s' : CrawlState} {a : Action}
    (hI : Inv e s) (h : step e s a = some s') : Inv e s' := by
  obtain ⟨hlen, hacct, hnd, hvR, hqR, hwI⟩ := hI
  have hsub := step_visited_sub h
  rcases step_cases h with
      ⟨w, u, rest, ha, hw, hq, rfl⟩ | ⟨w, u, ha, hw, hv, rfl⟩ | ⟨w, u, ha, hw, hv, rfl⟩ |
      ⟨w, u, ha, hw, rfl⟩ | ⟨w, u, ha, hw, rfl⟩ | ⟨w, u, hr, p, ha, hw, hint, hnv, rfl⟩ |
      ⟨w, u, hr, p, ha, hw, hni, rfl⟩ | ⟨w, u, ha, hw, rfl⟩
  · -- dequeue
    have hb := busy_set hw (.gotUrl u)
    rw [heldBit_idle, heldBit_gotUrl] at hb
    refine ⟨by simpa [List.length_set] using hlen, ?_, hnd, hvR, ?_, ?_⟩
    · dsimp only
      simp only [busy] at hacct hb ⊢
      simp only [hq, List.length_cons] at hacct
      omega
    · intro v hvm
      exact hqR v (hq ▸ List.mem_cons_of_mem _ hvm)
    · intro ph' hmem
      rcases List.mem_or_eq_of_mem_set hmem with hmem | rfl
      · exact phaseInv_mono hsub (hwI _ hmem)
      · exact hqR u (hq ▸ List.mem_cons_self _ _)
  · -- claim-lose
    have hb := busy_set hw .idle
    have hbp := busy_lower hw
    rw [heldBit_gotUrl, heldBit_idle] at hb
    rw [heldBit_gotUrl] at hbp
    refine ⟨by simpa [List.length_set] using hlen, ?_, hnd, hvR, hqR, ?_⟩
    · dsimp only
      simp only [busy] at hacct hb hbp ⊢
      omega
    · intro ph' hmem
      rcases List.mem_or_eq_of_mem_set hmem with hmem | rfl
      · exact phaseInv_mono hsub (hwI _ hmem)
      · trivial
  · -- claim-win
    have hb := busy_set hw (.fetching u)
    rw [heldBit_gotUrl, heldBit_fetching] at hb
    have hRu : Reaches e u := hwI _ (List.get?_mem hw)
    refine ⟨by simpa [List.length_set] using hlen, ?_, ?_, ?_, hqR, ?_⟩
    · dsimp only
      simp only [busy] at hacct hb ⊢
      omega
    · exact List.Nodup.cons hv hnd
    · intro v hvm
      rcases List.mem_cons.mp hvm with rfl | hvm
      · exact hRu
      · exact hvR v hvm
    · intro ph' hmem
      rcases List.mem_or_eq_of_mem_set hmem with hmem | rfl
      · exact phaseInv_mono hsub (hwI _ hmem)
      · exact ⟨hRu, List.mem_cons_self _ _⟩
  · -- fetchOk
    have hb := busy_set hw (.enqueuing u (e.hrefs u))
    rw [heldBit_fetching, heldBit_enqueuing] at hb
    obtain ⟨hRu, hvu⟩ := hwI _ (List.get?_mem hw)
    refine ⟨by simpa [List.length_set] using hlen, ?_, hnd, hvR, hqR, ?_⟩
    · dsimp only
      simp only [busy] at hacct hb ⊢
      omega
    · intro ph' hmem
      rcases List.mem_or_eq_of_mem_set hmem with hmem | rfl
      · exact phaseInv_mono hsub (hwI _ hmem)
      · exact ⟨hRu, hvu, [], rfl⟩
  · -- fetchFail
    have hb := busy_set hw .idle
    have hbp := busy_lower hw
    rw [heldBit_fetching, heldBit_idle] at hb
    rw [heldBit_fetching] at hbp
    refine ⟨by simpa [List.length_set] using hlen, ?_, hnd, hvR, hqR, ?_⟩
    · dsimp only
      simp only [busy] at hacct hb hbp ⊢
      omega
    · intro ph' hmem
      rcases List.mem_or_eq_of_mem_set hmem with hmem | rfl
      · exact phaseInv_mono hsub (hwI _ hmem)
      · trivial
  · -- enqStep (enqueued)
    have hb := busy_set hw (.enqueuing u p)
    rw [heldBit_enqueuing, heldBit_enqueuing] at hb
    obtain ⟨hRu, hvu, pre, hpre⟩ := hwI _ (List.get?_mem hw)
    have hhr : hr ∈ e.hrefs u := by
      rw [hpre]
      exact List.mem_append_right _ (List.mem_cons_self _ _)
    refine ⟨by simpa [List.length_set] using hlen, ?_, hnd, hvR, ?_, ?_⟩
    · dsimp only
      simp only [busy] at hacct hb ⊢
      simp only [List.length_append, List.length_cons, List.length_nil]
      omega
    · intro v hvm
      rcases List.mem_append.mp hvm with hvm | hvm
      · exact hqR v hvm
      · rcases List.mem_singleton.mp hvm with rfl
        exact Reaches.link hRu hhr hint
    · intro ph' hmem
      rcases List.mem_or_eq_of_mem_set hmem with hmem | rfl
      · exact phaseInv_mono hsub (hwI _ hmem)
      · exact ⟨hRu, hvu, pre ++ [hr], by rw [hpre, List.append_assoc]; rfl⟩
  · -- enqStep (skipped)
    have hb := busy_set hw (.enqueuing u p)
    rw [heldBit_enqueuing, heldBit_enqueuing] at hb
    obtain ⟨hRu, hvu, pre, hpre⟩ := hwI _ (List.get?_mem hw)
    refine ⟨by simpa [List.length_set] using hlen, ?_, hnd, hvR, hqR, ?_⟩
    · dsimp only
      simp only [busy] at hacct hb ⊢
      omega
    · intro ph' hmem
      rcases List.mem_or_eq_of_mem_set hmem with hmem | rfl
      · exact phaseInv_mono hsub (hwI _ hmem)
      · exact ⟨hRu, hvu, pre ++ [hr], by rw [hpre, List.append_assoc]; rfl⟩
  · -- finish
    have hb := busy_set hw .idle
    have hbp := busy_lower hw
    rw [heldBit_enqueuing, heldBit_idle] at hb
    rw [heldBit_enqueuing] at hbp
    refine ⟨by simpa [List.length_set] using hlen, ?_, hnd, hvR, hqR, ?_⟩
    · dsimp only
      simp only [busy] at hacct hb hbp ⊢
      omega
    · intro ph' hmem
      rcases List.mem_or_eq_of_mem_set hmem with hmem | rfl
      · exact phaseInv_mono hsub (hwI _ hmem)
      · trivial

end Crawl

namespace Crawl

open Scraper

/-- Generic preservation of a predicate along an execution. -/
theorem exec_inv {e : Env} (P : CrawlState → Prop)
    (hstep : ∀ s a s', P s → step e s a = some s' → P s') :
    ∀ (acts : List Action) (s s' : CrawlState),
      P s → exec e s acts = some s' → P s'
  | [], s, s', hP, hex => by
      simp only [exec] at hex
      cases hex
      exact hP
  | a :: acts, s, s', hP, hex => by
      simp only [exec] at hex
      rcases hstep' : step e s a with _ | s1
      · rw [hstep'] at hex
        cases hex
      · rw [hstep'] at hex
        exact exec_inv P hstep acts s1 s' (hstep s a s1 hP hstep') hex

/-- The run invariant holds initially. -/
theorem inv_init (e : Env) : Inv e (initState e) := by
  refine ⟨List.length_replicate _ _, ?_, List.nodup_nil, ?_, ?_, ?_⟩
  · have hz : busy (initState e) = 0 := by
      refine List.sum_eq_zero ?_
      intro x hx
      rcases List.mem_map.mp hx with ⟨ph, hmem, rfl⟩
      rcases List.eq_of_mem_replicate hmem with rfl
      rfl
    show (initState e).puts
      = (initState e).dones + (initState e).queue.length + busy (initState e)
    rw [hz]
    rfl
  · intro u hu
    cases hu
  · intro u hu
    rcases List.mem_singleton.mp hu with rfl
    exact Reaches.seed
  · intro ph hmem
    rcases List.eq_of_mem_replicate hmem with rfl
    trivial

/-- The run invariant holds in every state reachable from the start. -/
theorem inv_exec {e : Env} {acts : List Action} {s' : CrawlState}
    (hex : exec e (initState e) acts = some s') : Inv e s' :=
  exec_inv (Inv e) (fun _ _ _ hP h => inv_step hP h) acts _ s' (inv_init e) hex

/-- A URL held by the worker at a (valid) position is among the held
URLs after setting that position. -/
theorem mem_heldUrls_set {l : List Phase} {w : ℕ} (hlt : w < l.length)
    {ph : Phase} {x : Str} (hx : ph.heldUrl = some x) :
    x ∈ (l.set w ph).filterMap Phase.heldUrl :=
  List.mem_filterMap.mpr ⟨ph, List.mem_set l w hlt ph, hx⟩

/-- Everything known to the run stays known: a step only moves URLs
between the frontier, the workers and the visited set. -/
theorem step_known_mono {e : Env} {s s' : CrawlState} {a : Action}
    (hI : Inv e s) (h : step e s a = some s') {x : Str}
    (hx : x ∈ known s) : x ∈ known s' := by
  obtain ⟨hlen, hacct, hnd, hvR, hqR, hwI⟩ := hI
  have hsub := step_visited_sub h
  rcases step_cases h with
      ⟨w, u, rest, ha, hw, hq, rfl⟩ | ⟨w, u, ha, hw, hv, rfl⟩ | ⟨w, u, ha, hw, hv, rfl⟩ |
      ⟨w, u, ha, hw, rfl⟩ | ⟨w, u, ha, hw, rfl⟩ | ⟨w, u, hr, p, ha, hw, hint, hnv, rfl⟩ |
      ⟨w, u, hr, p, ha, hw, hni, rfl⟩ | ⟨w, u, ha, hw, rfl⟩ <;>
    obtain ⟨hlt, -⟩ := List.get?_eq_some.mp hw <;>
    simp only [known, heldUrls, List.mem_append] at hx ⊢
  · -- dequeue
    rcases hx with (hxv | hxq) | hxh
    · exact Or.inl (Or.inl hxv)
    · rw [hq] at hxq
      rcases List.mem_cons.mp hxq with rfl | hxq
      · exact Or.inr (mem_heldUrls_set hlt rfl)
      · exact Or.inl (Or.inr hxq)
    · rcases List.mem_filterMap.mp hxh with ⟨ph, hmem, hph⟩
      rcases mem_set_or_get _ w (Phase.gotUrl u) _ hmem with hmem' | hget
      · exact Or.inr (List.mem_filterMap.mpr ⟨ph, hmem', hph⟩)
      · rw [hw] at hget
        cases hget
        cases hph
  · -- claim-lose
    rcases hx with (hxv | hxq) | hxh
    · exact Or.inl (Or.inl hxv)
    · exact Or.inl (Or.inr hxq)
    · rcases List.mem_filterMap.mp hxh with ⟨ph, hmem, hph⟩
      rcases mem_set_or_get _ w Phase.idle _ hmem with hmem' | hget
      · exact Or.inr (List.mem_filterMap.mpr ⟨ph, hmem', hph⟩)
      · rw [hw] at hget
        cases hget
        cases hph
        exact Or.inl (Or.inl hv)
  · -- claim-win
    rcases hx with (hxv | hxq) | hxh
    · exact Or.inl (Or.inl (List.mem_cons_of_mem _ hxv))
    · exact Or.inl (Or.inr hxq)
    · rcases List.mem_filterMap.mp hxh with ⟨ph, hmem, hph⟩
      rcases mem_set_or_get _ w (Phase.fetching u) _ hmem with hmem' | hget
      · exact Or.inr (List.mem_filterMap.mpr ⟨ph, hmem', hph⟩)
      · rw [hw] at hget
        cases hget
        cases hph
        exact Or.inr (mem_heldUrls_set hlt rfl)
  · -- fetchOk
    rcases hx with (hxv | hxq) | hxh
    · exact Or.inl (Or.inl hxv)
    · exact Or.inl (Or.inr hxq)
    · rcases List.mem_filterMap.mp hxh with ⟨ph, hmem, hph⟩
      rcases mem_set_or_get _ w (Phase.enqueuing u (e.hrefs u)) _ hmem with hmem' | hget
      · exact Or.inr (List.mem_filterMap.mpr ⟨ph, hmem', hph⟩)
      · rw [hw] at hget
        cases hget
        cases hph
        exact Or.inr (mem_heldUrls_set hlt rfl)
  · -- fetchFail
    rcases hx with (hxv | hxq) | hxh
    · exact Or.inl (Or.inl hxv)
    · exact Or.inl (Or.inr hxq)
    · rcases List.mem_filterMap.mp hxh with ⟨ph, hmem, hph⟩
      rcases mem_set_or_get _ w Phase.idle _ hmem with hmem' | hget
      · exact Or.inr (List.mem_filterMap.mpr ⟨ph, hmem', hph⟩)
      · rw [hw] at hget
        cases hget
        cases hph
        exact Or.inl (Or.inl (hwI _ (List.get?_mem hw)).2)
  · -- enqStep (enqueued)
    rcases hx with (hxv | hxq) | hxh
    · exact Or.inl (Or.inl hxv)
    · exact Or.inl (Or.inr (Or.inl hxq))
    · rcases List.mem_filterMap.mp hxh with ⟨ph, hmem, hph⟩
      rcases mem_set_or_get _ w (Phase.enqueuing u p) _ hmem with hmem' | hget
      · exact Or.inr (List.mem_filterMap.mpr ⟨ph, hmem', hph⟩)
      · rw [hw] at hget
        cases hget
        cases hph
        exact Or.inr (mem_heldUrls_set hlt rfl)
  · -- enqStep (skipped)
    rcases hx with (hxv | hxq) | hxh
    · exact Or.inl (Or.inl hxv)
    · exact Or.inl (Or.inr hxq)
    · rcases List.mem_filterMap.mp hxh with ⟨ph, hmem, hph⟩
      rcases mem_set_or_get _ w (Phase.enqueuing u p) _ hmem with hmem' | hget
      · exact Or.inr (List.mem_filterMap.mpr ⟨ph, hmem', hph⟩)
      · rw [hw] at hget
        cases hget
        cases hph
        exact Or.inr (mem_heldUrls_set hlt rfl)
  · -- finish
    rcases hx with (hxv | hxq) | hxh
    · exact Or.inl (Or.inl hxv)
    · exact Or.inl (Or.inr hxq)
    · rcases List.mem_filterMap.mp hxh with ⟨ph, hmem, hph⟩
      rcases mem_set_or_get _ w Phase.idle _ hmem with hmem' | hget
      · exact Or.inr (List.mem_filterMap.mpr ⟨ph, hmem', hph⟩)
      · rw [hw] at hget
        cases hget
        cases hph
        exact Or.inl (Or.inl (hwI _ (List.get?_mem hw)).2.1)

end Crawl

namespace Crawl

open Scraper

/-- Conversely, a step introduces no URL out of thin air: anything
known afterwards was known before, except a link that passed the
same-domain filter at its enqueue. -/
theorem step_known_rev {e : Env} {s s' : CrawlState} {a : Action}
    (h : step e s a = some s') {x : Str} (hx : x ∈ known s') :
    x ∈ known s ∨ is_internal_link x e.domain = true := by
  rcases step_cases h with
      ⟨w, u, rest, ha, hw, hq, rfl⟩ | ⟨w, u, ha, hw, hv, rfl⟩ | ⟨w, u, ha, hw, hv, rfl⟩ |
      ⟨w, u, ha, hw, rfl⟩ | ⟨w, u, ha, hw, rfl⟩ | ⟨w, u, hr, p, ha, hw, hint, hnv, rfl⟩ |
      ⟨w, u, hr, p, ha, hw, hni, rfl⟩ | ⟨w, u, ha, hw, rfl⟩ <;>
    simp only [known, heldUrls, List.mem_append] at hx ⊢
  · -- dequeue
    rcases hx with (hxv | hxq) | hxh
    · exact Or.inl (Or.inl (Or.inl hxv))
    · exact Or.inl (Or.inl (Or.inr (hq ▸ List.mem_cons_of_mem _ hxq)))
    · rcases List.mem_filterMap.mp hxh with ⟨ph, hmem, hph⟩
      rcases List.mem_or_eq_of_mem_set hmem with hmem' | rfl
      · exact Or.inl (Or.inr (List.mem_filterMap.mpr ⟨ph, hmem', hph⟩))
      · cases hph
        exact Or.inl (Or.inl (Or.inr (hq ▸ List.mem_cons_self _ _)))
  · -- claim-lose
    rcases hx with (hxv | hxq) | hxh
    · exact Or.inl (Or.inl (Or.inl hxv))
    · exact Or.inl (Or.inl (Or.inr hxq))
    · rcases List.mem_filterMap.mp hxh with ⟨ph, hmem, hph⟩
      rcases List.mem_or_eq_of_mem_set hmem with hmem' | rfl
      · exact Or.inl (Or.inr (List.mem_filterMap.mpr ⟨ph, hmem', hph⟩))
      · cases hph
  · -- claim-win
    rcases hx with (hxv | hxq) | hxh
    · rcases List.mem_cons.mp hxv with rfl | hxv
      · exact Or.inl (Or.inr (List.mem_filterMap.mpr ⟨_, List.get?_mem hw, rfl⟩))
      · exact Or.inl (Or.inl (Or.inl hxv))
    · exact Or.inl (Or.inl (Or.inr hxq))
    · rcases List.mem_filterMap.mp hxh with ⟨ph, hmem, hph⟩
      rcases List.mem_or_eq_of_mem_set hmem with hmem' | rfl
      · exact Or.inl (Or.inr (List.mem_filterMap.mpr ⟨ph, hmem', hph⟩))
      · cases hph
        exact Or.inl (Or.inr (List.mem_filterMap.mpr ⟨_, List.get?_mem hw, rfl⟩))
  · -- fetchOk
    rcases hx with (hxv | hxq) | hxh
    · exact Or.inl (Or.inl (Or.inl hxv))
    · exact Or.inl (Or.inl (Or.inr hxq))
    · rcases List.mem_filterMap.mp hxh with ⟨ph, hmem, hph⟩
      rcases List.mem_or_eq_of_mem_set hmem with hmem' | rfl
      · exact Or.inl (Or.inr (List.mem_filterMap.mpr ⟨ph, hmem', hph⟩))
      · cases hph
        exact Or.inl (Or.inr (List.mem_filterMap.mpr ⟨_, List.get?_mem hw, rfl⟩))
  · -- fetchFail
    rcases hx with (hxv | hxq) | hxh
    · exact Or.inl (Or.inl (Or.inl hxv))
    · exact Or.inl (Or.inl (Or.inr hxq))
    · rcases List.mem_filterMap.mp hxh with ⟨ph, hmem, hph⟩
      rcases List.mem_or_eq_of_mem_set hmem with hmem' | rfl
      · exact Or.inl (Or.inr (List.mem_filterMap.mpr ⟨ph, hmem', hph⟩))
      · cases hph
  · -- enqStep (enqueued)
    rcases hx with (hxv | hxq) | hxh
    · exact Or.inl (Or.inl (Or.inl hxv))
    · rcases hxq with hxq | hxq
      · exact Or.inl (Or.inl (Or.inr hxq))
      · rcases List.mem_singleton.mp hxq with rfl
        exact Or.inr hint
    · rcases List.mem_filterMap.mp hxh with ⟨ph, hmem, hph⟩
      rcases List.mem_or_eq_of_mem_set hmem with hmem' | rfl
      · exact Or.inl (Or.inr (List.mem_filterMap.mpr ⟨ph, hmem', hph⟩))
      · cases hph
        exact Or.inl (Or.inr (List.mem_filterMap.mpr ⟨_, List.get?_mem hw, rfl⟩))
  · -- enqStep (skipped)
    rcases hx with (hxv | hxq) | hxh
    · exact Or.inl (Or.inl (Or.inl hxv))
    · exact Or.inl (Or.inl (Or.inr hxq))
    · rcases List.mem_filterMap.mp hxh with ⟨ph, hmem, hph⟩
      rcases List.mem_or_eq_of_mem_set hmem with hmem' | rfl
      · exact Or.inl (Or.inr (List.mem_filterMap.mpr ⟨ph, hmem', hph⟩))
      · cases hph
        exact Or.inl (Or.inr (List.mem_filterMap.mpr ⟨_, List.get?_mem hw, rfl⟩))
  · -- finish
    rcases hx with (hxv | hxq) | hxh
    · exact Or.inl (Or.inl (Or.inl hxv))
    · exact Or.inl (Or.inl (Or.inr hxq))
    · rcases List.mem_filterMap.mp hxh with ⟨ph, hmem, hph⟩
      rcases List.mem_or_eq_of_mem_set hmem with hmem' | rfl
      · exact Or.inl (Or.inr (List.mem_filterMap.mpr ⟨ph, hmem', hph⟩))
      · cases hph

/-- The seed URL always passes the same-domain filter (its netloc *is*
the domain). -/
theorem seed_internal (e : Env) :
    is_internal_link e.startUrl e.domain = true := by
  simp [is_internal_link, Env.domain, get_domain]

/-- The same-domain invariant holds initially. -/
theorem internalInv_init (e : Env) : InternalInv e (initState e) := by
  intro x hx
  simp only [known, initState, heldUrls, List.mem_append] at hx
  rcases hx with (hxv | hxq) | hxh
  · cases hxv
  · rcases List.mem_singleton.mp hxq with rfl
    exact seed_internal e
  · rcases List.mem_filterMap.mp hxh with ⟨ph, hmem, hph⟩
    rcases List.eq_of_mem_replicate hmem with rfl
    cases hph

/-- The same-domain invariant is preserved by every step. -/
theorem internalInv_step {e : Env} {s s' : CrawlState} {a : Action}
    (hII : InternalInv e s) (h : step e s a = some s') : InternalInv e s' := by
  intro x hx
  rcases step_known_rev h hx with hx' | hx'
  · exact hII x hx'
  · exact hx'

/-- The same-domain invariant holds in every reachable state. -/
theorem internalInv_exec {e : Env} {acts : List Action} {s' : CrawlState}
    (hex : exec e (initState e) acts = some s') : InternalInv e s' :=
  exec_inv (InternalInv e) (fun _ _ _ hP h => internalInv_step hP h) acts _ s'
    (internalInv_init e) hex

end Crawl

namespace Crawl

open Scraper

theorem wWork_idle (e : Env) : wWork e .idle = 0 := rfl

theorem wWork_gotUrl (e : Env) (u : Str) : wWork e (.gotUrl u) = 3 := rfl

theorem wWork_fetching (e : Env) (u : Str) :
    wWork e (.fetching u) = 5 * (e.hrefs u).length + 2 := rfl

theorem wWork_enqueuing (e : Env) (u : Str) (p : List Str) :
    wWork e (.enqueuing u p) = 5 * p.length + 1 := rfl

/-- Removing a fresh URL `u` from the unvisited pool releases exactly
`phiW e u` of potential. -/
theorem sum_filter_unvisit (φ : Str → ℕ) :
    ∀ (R : List Str) (vis : List Str) (u : Str), R.Nodup → u ∈ R → u ∉ vis →
    ((R.filter (fun v => decide (v ∉ u :: vis))).map φ).sum + φ u
      = ((R.filter (fun v => decide (v ∉ vis))).map φ).sum
  | [], _, _, _, hmem, _ => absurd hmem (List.not_mem_nil _)
  | r :: rs, vis, u, hnd, hmem, hnv => by
      rcases List.nodup_cons.mp hnd with ⟨hrns, hnds⟩
      rcases List.mem_cons.mp hmem with rfl | hmem'
      · have h1 : (decide (u ∉ u :: vis)) = false := by simp
        have h2 : (decide (u ∉ vis)) = true := by simpa using hnv
        rw [List.filter_cons, List.filter_cons, h1, h2]
        simp only [if_false, if_true, List.map_cons, List.sum_cons,
          Bool.false_eq_true, if_pos, reduceIte]
        have hcongr : rs.filter (fun v => decide (v ∉ u :: vis))
            = rs.filter (fun v => decide (v ∉ vis)) := by
          refine List.filter_congr ?_
          intro v hv
          have hvr : v ≠ u := fun hh => hrns (hh ▸ hv)
          refine decide_eq_decide.mpr ?_
          simp only [List.mem_cons]
          constructor
          · intro hh hm
            exact hh (Or.inr hm)
          · intro hh hm
            rcases hm with hm | hm
            · exact hvr hm
            · exact hh hm
        rw [hcongr]
        omega
      · have hur : u ≠ r := fun hh => hrns (hh ▸ hmem')
        have ih := sum_filter_unvisit φ rs vis u hnds hmem' hnv
        rw [List.filter_cons, List.filter_cons]
        have hcond : (decide (r ∉ u :: vis)) = (decide (r ∉ vis)) := by
          refine decide_eq_decide.mpr ?_
          simp only [List.mem_cons]
          constructor
          · intro hh hm
            exact hh (Or.inr hm)
          · intro hh hm
            rcases hm with hm | hm
            · exact hur hm.symm
            · exact hh hm
        rw [hcond]
        rcases hb : (decide (r ∉ vis)) with _ | _
        · simp only [Bool.false_eq_true, reduceIte]
          exact ih
        · simp only [reduceIte, List.map_cons, List.sum_cons]
          omega

/-- Every enabled step strictly decreases the termination measure. -/
theorem measure_dec {e : Env} {R : List Str} {s s' : CrawlState} {a : Action}
    (hI : Inv e s) (hcov : ∀ u, Reaches e u → u ∈ R) (hnd : R.Nodup)
    (h : step e s a = some s') :
    measureFn e R s' < measureFn e R s := by
  obtain ⟨hlen, hacct, hnds, hvR, hqR, hwI⟩ := hI
  rcases step_cases h with
      ⟨w, u, rest, ha, hw, hq, rfl⟩ | ⟨w, u, ha, hw, hv, rfl⟩ | ⟨w, u, ha, hw, hv, rfl⟩ |
      ⟨w, u, ha, hw, rfl⟩ | ⟨w, u, ha, hw, rfl⟩ | ⟨w, u, hr, p, ha, hw, hint, hnv, rfl⟩ |
      ⟨w, u, hr, p, ha, hw, hni, rfl⟩ | ⟨w, u, ha, hw, rfl⟩
  · -- dequeue
    have hs := sum_map_set (wWork e) s.workers w (.gotUrl u) _ hw
    rw [wWork_idle, wWork_gotUrl] at hs
    simp only [measureFn, hq, List.length_cons]
    omega
  · -- claim-lose
    have hs := sum_map_set (wWork e) s.workers w .idle _ hw
    rw [wWork_gotUrl, wWork_idle] at hs
    simp only [measureFn]
    omega
  · -- claim-win
    have hs := sum_map_set (wWork e) s.workers w (.fetching u) _ hw
    rw [wWork_gotUrl, wWork_fetching] at hs
    have hA := sum_filter_unvisit (phiW e) R s.visited u hnd
      (hcov u (hwI _ (List.get?_mem hw))) hv
    simp only [measureFn, phiW] at hA ⊢
    omega
  · -- fetchOk
    have hs := sum_map_set (wWork e) s.workers w (.enqueuing u (e.hrefs u)) _ hw
    rw [wWork_fetching, wWork_enqueuing] at hs
    simp only [measureFn]
    omega
  · -- fetchFail
    have hs := sum_map_set (wWork e) s.workers w .idle _ hw
    rw [wWork_fetching, wWork_idle] at hs
    simp only [measureFn]
    omega
  · -- enqStep (enqueued)
    have hs := sum_map_set (wWork e) s.workers w (.enqueuing u p) _ hw
    rw [wWork_enqueuing, wWork_enqueuing] at hs
    simp only [List.length_cons] at hs
    simp only [measureFn, List.length_append, List.length_cons, List.length_nil]
    omega
  · -- enqStep (skipped)
    have hs := sum_map_set (wWork e) s.workers w (.enqueuing u p) _ hw
    rw [wWork_enqueuing, wWork_enqueuing] at hs
    simp only [List.length_cons] at hs
    simp only [measureFn]
    omega
  · -- finish
    have hs := sum_map_set (wWork e) s.workers w .idle _ hw
    rw [wWork_enqueuing, wWork_idle] at hs
    simp only [List.length_nil] at hs
    simp only [measureFn]
    omega

/-- The length of any valid schedule is bounded by the measure of its
start state: the crawl cannot run forever. -/
theorem exec_length_le {e : Env} {R : List Str}
    (hcov : ∀ u, Reaches e u → u ∈ R) (hnd : R.Nodup) :
    ∀ (acts : List Action) (s s' : CrawlState), Inv e s →
      exec e s acts = some s' → acts.length ≤ measureFn e R s
  | [], _, _, _, _ => Nat.zero_le _
  | a :: acts, s, s', hI, hex => by
      simp only [exec] at hex
      rcases hstep' : step e s a with _ | s1
      · rw [hstep'] at hex
        cases hex
      · rw [hstep'] at hex
        have h1 := measure_dec hI hcov hnd hstep'
        have h2 := exec_length_le hcov hnd acts s1 s' (inv_step hI hstep') hex
        simp only [List.length_cons]
        omega

/-- In a quiescent state no worker holds a URL. -/
theorem quiescent_heldUrls {s : CrawlState} (hq : quiescent s) :
    heldUrls s = [] := by
  rw [heldUrls, List.filterMap_eq_nil]
  intro ph hmem
  rw [hq.2 ph hmem]
  rfl

/-- In a quiescent state no worker is busy. -/
theorem quiescent_busy {s : CrawlState} (hq : quiescent s) : busy s = 0 := by
  refine List.sum_eq_zero ?_
  intro x hx
  rcases List.mem_map.mp hx with ⟨ph, hmem, rfl⟩
  rw [hq.2 ph hmem]
  rfl

/-- A non-quiescent state always has an enabled step (the system can
only halt quiescent). -/
theorem progress {e : Env} {s : CrawlState} (hI : Inv e s)
    (hn : 0 < e.nWorkers) (hq : ¬ quiescent s) :
    ∃ a s', step e s a = some s' := by
  obtain ⟨hlen, -, -, -, -, -⟩ := hI
  by_cases hall : ∀ ph ∈ s.workers, ph = Phase.idle
  · have hqne : s.queue ≠ [] := fun hq0 => hq ⟨hq0, hall⟩
    rcases hq1 : s.queue with _ | ⟨u, rest⟩
    · exact absurd hq1 hqne
    · obtain ⟨ph, hg⟩ : ∃ ph, s.workers.get? 0 = some ph := by
        rcases hg : s.workers.get? 0 with _ | ph
        · rw [List.get?_eq_getElem?, List.getElem?_eq_none_iff] at hg
          omega
        · exact ⟨ph, rfl⟩
      have hidle : ph = Phase.idle := hall ph (List.get?_mem hg)
      subst hidle
      refine ⟨.dequeue 0, ?_⟩
      refine Option.isSome_iff_exists.mp ?_
      simp only [step, hg, hq1]
      rfl
  · push_neg at hall
    obtain ⟨ph, hmem, hne⟩ := hall
    obtain ⟨w, hg⟩ := List.mem_iff_get?.mp hmem
    cases ph with
    | idle => exact absurd rfl hne
    | gotUrl u =>
        refine ⟨.claim w, ?_⟩
        refine Option.isSome_iff_exists.mp ?_
        simp only [step, hg]
        split <;> rfl
    | fetching u =>
        refine ⟨.fetchOk w, ?_⟩
        refine Option.isSome_iff_exists.mp ?_
        simp only [step, hg]
        rfl
    | enqueuing u p =>
        cases p with
        | nil =>
            refine ⟨.finish w, ?_⟩
            refine Option.isSome_iff_exists.mp ?_
            simp only [step, hg]
            rfl
        | cons hr p' =>
            refine ⟨.enqStep w, ?_⟩
            refine Option.isSome_iff_exists.mp ?_
            simp only [step, hg]
            split <;> rfl

end Crawl

namespace Crawl

open Scraper

theorem known_of_visited {s : CrawlState} {x : Str} (h : x ∈ s.visited) :
    x ∈ known s := List.mem_append_left _ (List.mem_append_left _ h)

theorem known_of_queue {s : CrawlState} {x : Str} (h : x ∈ s.queue) :
    x ∈ known s := List.mem_append_left _ (List.mem_append_right _ h)

theorem known_of_held {s : CrawlState} {x : Str} (h : x ∈ heldUrls s) :
    x ∈ known s := List.mem_append_right _ h

theorem get?_set_self {α} {l : List α} {w : ℕ} {old : α}
    (hw : l.get? w = some old) (x : α) : (l.set w x).get? w = some x := by
  rw [List.get?_set_eq, hw]
  rfl

/-- The link-coverage invariant is preserved by every non-failing
step. -/
theorem covInv_step {e : Env} {s s' : CrawlState} {a : Action}
    (hI : Inv e s) (hCov : CovInv e s) (hnf : a.isFetchFail = false)
    (h : step e s a = some s') : CovInv e s' := by
  have hkm : ∀ x, x ∈ known s → x ∈ known s' :=
    fun x hx => step_known_mono hI h hx
  rcases step_cases h with
      ⟨w, u, rest, ha, hw, hq, rfl⟩ | ⟨w, u, ha, hw, hv, rfl⟩ | ⟨w, u, ha, hw, hv, rfl⟩ |
      ⟨w, u, ha, hw, rfl⟩ | ⟨w, u, ha, hw, rfl⟩ | ⟨w, u, hr, p, ha, hw, hint, hnv, rfl⟩ |
      ⟨w, u, hr, p, ha, hw, hni, rfl⟩ | ⟨w, u, ha, hw, rfl⟩
  · -- dequeue: old phase idle
    intro u' hu'
    rcases hCov u' hu' with ⟨w1, hw1⟩ | ⟨w1, pre, p1, hw1, hpre, hall⟩ | hall
    · have hne : w ≠ w1 := by
        intro heq
        rw [← heq, hw] at hw1
        simp at hw1
      exact Or.inl ⟨w1, by rw [List.get?_set_ne _ _ hne]; exact hw1⟩
    · have hne : w ≠ w1 := by
        intro heq
        rw [← heq, hw] at hw1
        simp at hw1
      exact Or.inr (Or.inl ⟨w1, pre, p1, by rw [List.get?_set_ne _ _ hne]; exact hw1,
        hpre, fun hh hm hi => hkm _ (hall hh hm hi)⟩)
    · exact Or.inr (Or.inr (fun hh hm hi => hkm _ (hall hh hm hi)))
  · -- claim-lose: old phase gotUrl
    intro u' hu'
    rcases hCov u' hu' with ⟨w1, hw1⟩ | ⟨w1, pre, p1, hw1, hpre, hall⟩ | hall
    · have hne : w ≠ w1 := by
        intro heq
        rw [← heq, hw] at hw1
        simp at hw1
      exact Or.inl ⟨w1, by rw [List.get?_set_ne _ _ hne]; exact hw1⟩
    · have hne : w ≠ w1 := by
        intro heq
        rw [← heq, hw] at hw1
        simp at hw1
      exact Or.inr (Or.inl ⟨w1, pre, p1, by rw [List.get?_set_ne _ _ hne]; exact hw1,
        hpre, fun hh hm hi => hkm _ (hall hh hm hi)⟩)
    · exact Or.inr (Or.inr (fun hh hm hi => hkm _ (hall hh hm hi)))
  · -- claim-win: u becomes visited, worker w now fetching u
    intro u' hu'
    rcases List.mem_cons.mp hu' with rfl | hu'
    · exact Or.inl ⟨w, get?_set_self hw _⟩
    · rcases hCov u' hu' with ⟨w1, hw1⟩ | ⟨w1, pre, p1, hw1, hpre, hall⟩ | hall
      · have hne : w ≠ w1 := by
          intro heq
          rw [← heq, hw] at hw1
          simp at hw1
        exact Or.inl ⟨w1, by rw [List.get?_set_ne _ _ hne]; exact hw1⟩
      · have hne : w ≠ w1 := by
          intro heq
          rw [← heq, hw] at hw1
          simp at hw1
        exact Or.inr (Or.inl ⟨w1, pre, p1, by rw [List.get?_set_ne _ _ hne]; exact hw1,
          hpre, fun hh hm hi => hkm _ (hall hh hm hi)⟩)
      · exact Or.inr (Or.inr (fun hh hm hi => hkm _ (hall hh hm hi)))
  · -- fetchOk: worker w moves from fetching u to enqueuing u (hrefs u)
    intro u' hu'
    rcases hCov u' hu' with ⟨w1, hw1⟩ | ⟨w1, pre, p1, hw1, hpre, hall⟩ | hall
    · by_cases hew : w1 = w
      · subst hew
        rw [hw] at hw1
        have heq := Option.some.inj hw1
        injection heq with h1
        subst h1
        exact Or.inr (Or.inl ⟨w1, [], e.hrefs u, get?_set_self hw _, rfl,
          fun hh hm => absurd hm (List.not_mem_nil hh)⟩)
      · exact Or.inl ⟨w1, by rw [List.get?_set_ne _ _ (Ne.symm hew)]; exact hw1⟩
    · have hne : w ≠ w1 := by
        intro heq
        rw [← heq, hw] at hw1
        simp at hw1
      exact Or.inr (Or.inl ⟨w1, pre, p1, by rw [List.get?_set_ne _ _ hne]; exact hw1,
        hpre, fun hh hm hi => hkm _ (hall hh hm hi)⟩)
    · exact Or.inr (Or.inr (fun hh hm hi => hkm _ (hall hh hm hi)))
  · -- fetchFail: excluded by the guard
    cases ha
    cases hnf
  · -- enqStep (enqueued): worker w advances its pending list
    intro u' hu'
    rcases hCov u' hu' with ⟨w1, hw1⟩ | ⟨w1, pre, p1, hw1, hpre, hall⟩ | hall
    · have hne : w ≠ w1 := by
        intro heq
        rw [← heq, hw] at hw1
        simp at hw1
      exact Or.inl ⟨w1, by rw [List.get?_set_ne _ _ hne]; exact hw1⟩
    · by_cases hew : w1 = w
      · subst hew
        rw [hw] at hw1
        have heq := Option.some.inj hw1
        injection heq with h1 h2
        subst h1
        subst h2
        refine Or.inr (Or.inl ⟨w1, pre ++ [hr], p, get?_set_self hw _, ?_, ?_⟩)
        · rw [hpre, List.append_assoc]
          rfl
        · intro hh hm hi
          rcases List.mem_append.mp hm with hm | hm
          · exact hkm _ (hall hh hm hi)
          · rcases List.mem_singleton.mp hm with rfl
            exact known_of_queue (List.mem_append_right _ (List.mem_singleton.mpr rfl))
      · exact Or.inr (Or.inl ⟨w1, pre, p1,
          by rw [List.get?_set_ne _ _ (Ne.symm hew)]; exact hw1,
          hpre, fun hh hm hi => hkm _ (hall hh hm hi)⟩)
    · exact Or.inr (Or.inr (fun hh hm hi => hkm _ (hall hh hm hi)))
  · -- enqStep (skipped)
    intro u' hu'
    rcases hCov u' hu' with ⟨w1, hw1⟩ | ⟨w1, pre, p1, hw1, hpre, hall⟩ | hall
    · have hne : w ≠ w1 := by
        intro heq
        rw [← heq, hw] at hw1
        simp at hw1
      exact Or.inl ⟨w1, by rw [List.get?_set_ne _ _ hne]; exact hw1⟩
    · by_cases hew : w1 = w
      · subst hew
        rw [hw] at hw1
        have heq := Option.some.inj hw1
        injection heq with h1 h2
        subst h1
        subst h2
        refine Or.inr (Or.inl ⟨w1, pre ++ [hr], p, get?_set_self hw _, ?_, ?_⟩)
        · rw [hpre, List.append_assoc]
          rfl
        · intro hh hm hi
          rcases List.mem_append.mp hm with hm | hm
          · exact hkm _ (hall hh hm hi)
          · rcases List.mem_singleton.mp hm with rfl
            have hvv : e.canon u hh ∈ s.visited := by
              by_contra hcc
              exact hni ⟨hi, hcc⟩
            exact known_of_visited hvv
      · exact Or.inr (Or.inl ⟨w1, pre, p1,
          by rw [List.get?_set_ne _ _ (Ne.symm hew)]; exact hw1,
          hpre, fun hh hm hi => hkm _ (hall hh hm hi)⟩)
    · exact Or.inr (Or.inr (fun hh hm hi => hkm _ (hall hh hm hi)))
  · -- finish: worker w ends the anchor loop of u
    intro u' hu'
    rcases hCov u' hu' with ⟨w1, hw1⟩ | ⟨w1, pre, p1, hw1, hpre, hall⟩ | hall
    · have hne : w ≠ w1 := by
        intro heq
        rw [← heq, hw] at hw1
        simp at hw1
      exact Or.inl ⟨w1, by rw [List.get?_set_ne _ _ hne]; exact hw1⟩
    · by_cases hew : w1 = w
      · subst hew
        rw [hw] at hw1
        have heq := Option.some.inj hw1
        injection heq with h1 h2
        subst h1
        subst h2
        refine Or.inr (Or.inr ?_)
        intro hh hm hi
        rw [List.append_nil] at hpre
        rw [hpre] at hm
        exact hkm _ (hall hh hm hi)
      · exact Or.inr (Or.inl ⟨w1, pre, p1,
          by rw [List.get?_set_ne _ _ (Ne.symm hew)]; exact hw1,
          hpre, fun hh hm hi => hkm _ (hall hh hm hi)⟩)
    · exact Or.inr (Or.inr (fun hh hm hi => hkm _ (hall hh hm hi)))

end Crawl

namespace Crawl

open Scraper

/-- Preservation of a predicate along a failure-free execution. -/
theorem exec_inv_guard {e : Env} (P : CrawlState → Prop)
    (hstep : ∀ s a s', a.isFetchFail = false → P s → step e s a = some s' → P s') :
    ∀ (acts : List Action) (s s' : CrawlState),
      noFail acts → P s → exec e s acts = some s' → P s'
  | [], s, s', _, hP, hex => by
      simp only [exec] at hex
      cases hex
      exact hP
  | a :: acts, s, s', hnf, hP, hex => by
      simp only [exec] at hex
      rcases hstep' : step e s a with _ | s1
      · rw [hstep'] at hex
        cases hex
      · rw [hstep'] at hex
        have hh := hnf a (List.mem_cons_self _ _)
        have htl : noFail acts := fun b hb => hnf b (List.mem_cons_of_mem _ hb)
        exact exec_inv_guard P hstep acts s1 s' htl
          (hstep s a s1 hh hP hstep') hex

/-- The coverage invariant holds initially (nothing visited yet). -/
theorem covInv_init (e : Env) : CovInv e (initState e) := by
  intro u hu
  cases hu

/-- Invariant and coverage hold after any failure-free execution from
the start state. -/
theorem covInv_exec {e : Env} {acts : List Action} {s' : CrawlState}
    (hnf : noFail acts) (hex : exec e (initState e) acts = some s') :
    Inv e s' ∧ CovInv e s' :=
  exec_inv_guard (fun t => Inv e t ∧ CovInv e t)
    (fun s a s1 hg hP h => ⟨inv_step hP.1 h, covInv_step hP.1 hP.2 hg h⟩)
    acts _ s' hnf ⟨inv_init e, covInv_init e⟩ hex

/-- URLs known to the run stay known along any execution. -/
theorem exec_known_mono {e : Env} {x : Str} :
    ∀ (acts : List Action) (s s' : CrawlState),
      Inv e s → x ∈ known s → exec e s acts = some s' → x ∈ known s' := by
  intro acts s s' hI hx hex
  exact (exec_inv (fun t => Inv e t ∧ x ∈ known t)
    (fun t a t' hP h => ⟨inv_step hP.1 h, step_known_mono hP.1 h hP.2⟩)
    acts s s' ⟨hI, hx⟩ hex).2

/-- In a quiescent state everything known is visited. -/
theorem quiescent_known_visited {s : CrawlState} (hqz : quiescent s)
    {x : Str} (hx : x ∈ known s) : x ∈ s.visited := by
  rw [known, hqz.1, quiescent_heldUrls hqz] at hx
  simpa using hx

/-- At a failure-free quiescent end state, the visited set is exactly
the reachable set. -/
theorem coverage_final {e : Env} {s' : CrawlState}
    (hI : Inv e s') (hC : CovInv e s') (hqz : quiescent s')
    (hseed : e.startUrl ∈ known s') :
    ∀ u, Reaches e u → u ∈ s'.visited := by
  intro u hu
  induction hu with
  | seed => exact quiescent_known_visited hqz hseed
  | @link v hh hv hmem hint ih =>
      rcases hC v ih with ⟨w1, hw1⟩ | ⟨w1, pre, p1, hw1, -, -⟩ | hall
      · have := hqz.2 _ (List.get?_mem hw1)
        cases this
      · have := hqz.2 _ (List.get?_mem hw1)
        cases this
      · exact quiescent_known_visited hqz (hall hh hmem hint)

/-- No URL wins the dedup gate once it is already visited. -/
theorem wins_zero_of_visited {e : Env} :
    ∀ (acts : List Action) (s : CrawlState) (u : Str), u ∈ s.visited →
      wins e s acts u = 0
  | [], _, _, _ => rfl
  | a :: acts, s, u, hv => by
      simp only [wins]
      rcases hstep : step e s a with _ | s1
      · rfl
      · have hw : isWin s a u = false := by
          cases a with
          | claim w =>
              simp only [isWin]
              rcases hg : s.workers.get? w with _ | ph
              · rfl
              · cases ph with
                | gotUrl v => simp [hv]
                | idle => rfl
                | fetching _ => rfl
                | enqueuing _ _ => rfl
          | dequeue w => rfl
          | fetchOk w => rfl
          | fetchFail w => rfl
          | enqStep w => rfl
          | finish w => rfl
        rw [hw]
        simpa using wins_zero_of_visited acts s1 u (step_visited_sub hstep hv)

/-- A winning claim puts the URL into the visited set of the next
state. -/
theorem win_visits {e : Env} {s s1 : CrawlState} {a : Action} {u : Str}
    (hstep : step e s a = some s1) (hwin : isWin s a u = true) :
    u ∈ s1.visited := by
  rcases step_cases hstep with
      ⟨w, v, rest, ha, hw, hq, rfl⟩ | ⟨w, v, ha, hw, hv, rfl⟩ | ⟨w, v, ha, hw, hv, rfl⟩ |
      ⟨w, v, ha, hw, rfl⟩ | ⟨w, v, ha, hw, rfl⟩ | ⟨w, v, hr, p, ha, hw, hint, hnv, rfl⟩ |
      ⟨w, v, hr, p, ha, hw, hni, rfl⟩ | ⟨w, v, ha, hw, rfl⟩ <;> subst ha
  · simp [isWin] at hwin
  · simp only [isWin, hw] at hwin
    obtain ⟨rfl, hnv⟩ := of_decide_eq_true hwin
    exact absurd hv hnv
  · simp only [isWin, hw] at hwin
    obtain ⟨rfl, -⟩ := of_decide_eq_true hwin
    exact List.mem_cons_self _ _
  · simp [isWin] at hwin
  · simp [isWin] at hwin
  · simp [isWin] at hwin
  · simp [isWin] at hwin
  · simp [isWin] at hwin

/-- Only a winning claim of `u` can add `u` to the visited set. -/
theorem visited_new_is_win {e : Env} {s s1 : CrawlState} {a : Action} {u : Str}
    (hstep : step e s a = some s1) (hnv : u ∉ s.visited) (hv : u ∈ s1.visited) :
    isWin s a u = true := by
  rcases step_cases hstep with
      ⟨w, v, rest, ha, hw, hq, rfl⟩ | ⟨w, v, ha, hw, hv', rfl⟩ | ⟨w, v, ha, hw, hv', rfl⟩ |
      ⟨w, v, ha, hw, rfl⟩ | ⟨w, v, ha, hw, rfl⟩ | ⟨w, v, hr, p, ha, hw, hint, hnv', rfl⟩ |
      ⟨w, v, hr, p, ha, hw, hni, rfl⟩ | ⟨w, v, ha, hw, rfl⟩ <;> subst ha
  · exact absurd hv hnv
  · exact absurd hv hnv
  · rcases List.mem_cons.mp hv with rfl | hv2
    · simp only [isWin, hw]
      simp [hnv]
    · exact absurd hv2 hnv
  · exact absurd hv hnv
  · exact absurd hv hnv
  · exact absurd hv hnv
  · exact absurd hv hnv
  · exact absurd hv hnv

/-- A win on `u` is in particular an attempt on `u`. -/
theorem attempt_of_win {s : CrawlState} {a : Action} {u : Str}
    (hwin : isWin s a u = true) : isAttempt s a u = true := by
  cases a with
  | claim w =>
      simp only [isWin] at hwin
      simp only [isAttempt]
      rcases hg : s.workers.get? w with _ | ph
      · rw [hg] at hwin
        cases hwin
      · rw [hg] at hwin
        cases ph with
        | gotUrl v =>
            obtain ⟨rfl, -⟩ := of_decide_eq_true hwin
            exact decide_eq_true rfl
        | idle => cases hwin
        | fetching _ => cases hwin
        | enqueuing _ _ => cases hwin
  | dequeue w => simp [isWin] at hwin
  | fetchOk w => simp [isWin] at hwin
  | fetchFail w => simp [isWin] at hwin
  | enqStep w => simp [isWin] at hwin
  | finish w => simp [isWin] at hwin

/-- An attempt on an unvisited URL is a win. -/
theorem win_of_attempt {s : CrawlState} {a : Action} {u : Str}
    (hatt : isAttempt s a u = true) (hnv : u ∉ s.visited) :
    isWin s a u = true := by
  cases a with
  | claim w =>
      simp only [isAttempt] at hatt
      simp only [isWin]
      rcases hg : s.workers.get? w with _ | ph
      · rw [hg] at hatt
        cases hatt
      · rw [hg] at hatt
        cases ph with
        | gotUrl v =>
            have : v = u := of_decide_eq_true hatt
            subst this
            exact decide_eq_true ⟨rfl, hnv⟩
        | idle => cases hatt
        | fetching _ => cases hatt
        | enqueuing _ _ => cases hatt
  | dequeue w => simp [isAttempt] at hatt
  | fetchOk w => simp [isAttempt] at hatt
  | fetchFail w => simp [isAttempt] at hatt
  | enqStep w => simp [isAttempt] at hatt
  | finish w => simp [isAttempt] at hatt

/-- The dedup gate grants a URL at most once along any schedule. -/
theorem wins_le_one {e : Env} :
    ∀ (acts : List Action) (s : CrawlState) (u : Str),
      wins e s acts u ≤ 1
  | [], _, _ => by simp [wins]
  | a :: acts, s, u => by
      simp only [wins]
      rcases hstep : step e s a with _ | s1
      · simp
      · rcases hwin : isWin s a u with _ | _
        · simpa using wins_le_one acts s1 u
        · have hu1 := win_visits hstep hwin
          have hz := wins_zero_of_visited (e := e) acts s1 u hu1
          simp [hz]

/-- If the gate is attempted at all on an unvisited URL, it grants it
at least once. -/
theorem attempts_wins {e : Env} :
    ∀ (acts : List Action) (s : CrawlState) (u : Str), u ∉ s.visited →
      1 ≤ attempts e s acts u → 1 ≤ wins e s acts u
  | [], s, u, hnv, hat => by simp [attempts] at hat
  | a :: acts, s, u, hnv, hat => by
      rcases hstep : step e s a with _ | s1
      · simp only [attempts, hstep] at hat
        omega
      · simp only [attempts, hstep] at hat
        simp only [wins, hstep]
        rcases hatt : isAttempt s a u with _ | _
        · have hnv1 : u ∉ s1.visited := by
            intro hv1
            have hwin := visited_new_is_win hstep hnv hv1
            have hcontra := attempt_of_win hwin
            rw [hatt] at hcontra
            cases hcontra
          rw [hatt] at hat
          have hIH := attempts_wins acts s1 u hnv1 (by simpa using hat)
          have hwf : isWin s a u = false := by
            rcases hq2 : isWin s a u with _ | _
            · rfl
            · have hca := attempt_of_win hq2
              rw [hatt] at hca
              cases hca
          simp only [hwf]
          simpa using hIH
        · have hwin := win_of_attempt hatt hnv
          simp [hwin]

end Crawl

namespace Crawl

open Scraper

/-- Per-step `task_done` accounting: each step that finishes handling a
dequeued item (claim-lose, fetch failure, or end of the anchor loop)
performs exactly one `task_done`; each dequeue adds one in-flight
item. -/
theorem step_dones {e : Env} {s s' : CrawlState} {a : Action}
    (h : step e s a = some s') :
    s'.dones + busy s' = s.dones + busy s + (if a.isDequeue then 1 else 0) := by
  rcases step_cases h with
      ⟨w, u, rest, ha, hw, hq, rfl⟩ | ⟨w, u, ha, hw, hv, rfl⟩ | ⟨w, u, ha, hw, hv, rfl⟩ |
      ⟨w, u, ha, hw, rfl⟩ | ⟨w, u, ha, hw, rfl⟩ | ⟨w, u, hr, p, ha, hw, hint, hnv, rfl⟩ |
      ⟨w, u, hr, p, ha, hw, hni, rfl⟩ | ⟨w, u, ha, hw, rfl⟩ <;> subst ha
  · have hb := busy_set hw (.gotUrl u)
    rw [heldBit_idle, heldBit_gotUrl] at hb
    dsimp only
    simp only [Action.isDequeue, busy, Bool.false_eq_true, if_true, if_false] at hb ⊢
    omega
  · have hb := busy_set hw .idle
    have hbp := busy_lower hw
    rw [heldBit_gotUrl, heldBit_idle] at hb
    rw [heldBit_gotUrl] at hbp
    dsimp only
    simp only [Action.isDequeue, busy, Bool.false_eq_true, if_true, if_false] at hb hbp ⊢
    omega
  · have hb := busy_set hw (.fetching u)
    rw [heldBit_gotUrl, heldBit_fetching] at hb
    dsimp only
    simp only [Action.isDequeue, busy, Bool.false_eq_true, if_true, if_false] at hb ⊢
    omega
  · have hb := busy_set hw (.enqueuing u (e.hrefs u))
    rw [heldBit_fetching, heldBit_enqueuing] at hb
    dsimp only
    simp only [Action.isDequeue, busy, Bool.false_eq_true, if_true, if_false] at hb ⊢
    omega
  · have hb := busy_set hw .idle
    have hbp := busy_lower hw
    rw [heldBit_fetching, heldBit_idle] at hb
    rw [heldBit_fetching] at hbp
    dsimp only
    simp only [Action.isDequeue, busy, Bool.false_eq_true, if_true, if_false] at hb hbp ⊢
    omega
  · have hb := busy_set hw (.enqueuing u p)
    rw [heldBit_enqueuing, heldBit_enqueuing] at hb
    dsimp only
    simp only [Action.isDequeue, busy, Bool.false_eq_true, if_true, if_false] at hb ⊢
    omega
  · have hb := busy_set hw (.enqueuing u p)
    rw [heldBit_enqueuing, heldBit_enqueuing] at hb
    dsimp only
    simp only [Action.isDequeue, busy, Bool.false_eq_true, if_true, if_false] at hb ⊢
    omega
  · have hb := busy_set hw .idle
    have hbp := busy_lower hw
    rw [heldBit_enqueuing, heldBit_idle] at hb
    rw [heldBit_enqueuing] at hbp
    dsimp only
    simp only [Action.isDequeue, busy, Bool.false_eq_true, if_true, if_false] at hb hbp ⊢
    omega

/-- Trace-level accounting: completed `task_done`s equal dequeues minus
items still being handled by a busy worker. -/
theorem exec_dones {e : Env} :
    ∀ (acts : List Action) (s s' : CrawlState),
      exec e s acts = some s' →
      s'.dones + busy s' = s.dones + busy s + dequeues e s acts
  | [], s, s', hex => by
      simp only [exec] at hex
      cases hex
      simp [dequeues]
  | a :: acts, s, s', hex => by
      simp only [exec] at hex
      rcases hstep : step e s a with _ | s1
      · rw [hstep] at hex
        cases hex
      · rw [hstep] at hex
        have h1 := step_dones hstep
        have h2 := exec_dones acts s1 s' hex
        simp only [dequeues, hstep]
        omega

end Crawl

namespace Crawl

open Scraper

theorem busy_init (e : Env) : busy (initState e) = 0 := by
  refine List.sum_eq_zero ?_
  intro x hx
  rcases List.mem_map.mp hx with ⟨ph, hmem, rfl⟩
  rcases List.eq_of_mem_replicate hmem with rfl
  rfl

/-- **C1.**  The dedup gate (`if url in self.visited … self.visited.add(url)`,
one atomic region because no `await` separates main.py lines 134–136)
grants each URL at most once per crawl run: along any valid schedule
from the start state, at most one claim of a URL wins, and if the gate
is exercised on the URL at all, exactly one contender wins.  Hence no
URL is fetched and saved more than once. -/
theorem claim_C1 (e : Env) (acts : List Action) (u : Str)
    (hex : (exec e (initState e) acts).isSome = true) :
    wins e (initState e) acts u ≤ 1
    ∧ (1 ≤ attempts e (initState e) acts u →
        wins e (initState e) acts u = 1) := by
  refine ⟨wins_le_one acts _ u, fun hat => ?_⟩
  have h1 := attempts_wins acts (initState e) u (by simp [initState]) hat
  have h2 := wins_le_one (e := e) acts (initState e) u
  omega

/-- **C2.**  Termination and exactly-once coverage.  If the reachable
same-domain link graph of the seed is finite (covered by a
duplicate-free list `R`) then: every schedule halts within
`measureFn` steps; a non-quiescent state always has an enabled step, so
every maximal run ends quiescent; the visited set never holds
duplicates (at most one attempt per URL); and in a quiescent end state
`join()` has returned (`puts = dones`) and — when no fetch failed — the
visited set is exactly the set of reachable URLs, i.e. each reachable
same-domain URL (cycles included) was attempted exactly once.  A page
with no outbound links reaches quiescence having visited only the
seed. -/
theorem claim_C2 (e : Env) (R : List Str) (acts : List Action) (s' : CrawlState)
    (hW : 0 < e.nWorkers) (hcov : ∀ u, Reaches e u → u ∈ R) (hnd : R.Nodup)
    (hex : exec e (initState e) acts = some s') :
    acts.length ≤ measureFn e R (initState e)
    ∧ (¬ quiescent s' → ∃ a s'', step e s' a = some s'')
    ∧ s'.visited.Nodup
    ∧ (quiescent s' → s'.puts = s'.dones
        ∧ (noFail acts → ∀ u, Reaches e u ↔ u ∈ s'.visited)) := by
  have hI := inv_exec hex
  obtain ⟨hlen, hacct, hnodup, hvR, hqR, hwI⟩ := hI
  refine ⟨exec_length_le hcov hnd acts _ s' (inv_init e) hex,
          fun hq => progress (inv_exec hex) hW hq, hnodup, fun hq => ⟨?_, ?_⟩⟩
  · have hb := quiescent_busy hq
    rw [hq.1] at hacct
    simp only [List.length_nil] at hacct
    omega
  · intro hnf u
    obtain ⟨hI', hC⟩ := covInv_exec hnf hex
    constructor
    · intro hr
      refine coverage_final hI' hC hq ?_ u hr
      exact exec_known_mono acts _ _ (inv_init e)
        (known_of_queue (by simp [initState])) hex
    · intro hv
      exact hvR u hv

/-- **C3.**  Same-domain filtering: in every reachable state of every
crawl run, each URL in the frontier or in the visited set has an empty
host component or a host exactly equal to the crawl domain (the netloc
of the seed URL); no URL with a different non-empty host ever appears
in either. -/
theorem claim_C3 (e : Env) (acts : List Action) (s' : CrawlState)
    (hex : exec e (initState e) acts = some s') :
    ∀ u, (u ∈ s'.queue ∨ u ∈ s'.visited) →
      (urlparse u).netloc = [] ∨ (urlparse u).netloc = e.domain := by
  intro u hu
  have hint : is_internal_link u e.domain = true := by
    rcases hu with hu | hu
    · exact internalInv_exec hex u (known_of_queue hu)
    · exact internalInv_exec hex u (known_of_visited hu)
  exact of_decide_eq_true hint

/-- **C5.**  Queue items are marked done exactly once each, regardless
of outcome.  Along any run, `task_done` count = dequeues − items still
in a worker's hands, and = dequeues exactly at quiescence.  The
claim-lost path and the fetch-failure path each mark done exactly once,
return the worker to the queue, and neither re-enqueues the URL. -/
theorem claim_C5 (e : Env) (acts : List Action) (s' : CrawlState)
    (hex : exec e (initState e) acts = some s') :
    s'.dones + busy s' = dequeues e (initState e) acts
    ∧ (quiescent s' → s'.dones = dequeues e (initState e) acts)
    ∧ (∀ s1 s2 w u, s1.workers.get? w = some (.fetching u) →
        step e s1 (.fetchFail w) = some s2 →
        s2.dones = s1.dones + 1 ∧ s2.queue = s1.queue
          ∧ s2.workers.get? w = some .idle)
    ∧ (∀ s1 s2 w u, s1.workers.get? w = some (.gotUrl u) → u ∈ s1.visited →
        step e s1 (.claim w) = some s2 →
        s2.dones = s1.dones + 1 ∧ s2.queue = s1.queue
          ∧ s2.workers.get? w = some .idle) := by
  have hmain : s'.dones + busy s' = dequeues e (initState e) acts := by
    have h := exec_dones acts (initState e) s' hex
    have hb := busy_init e
    have h0 : (initState e).dones = 0 := rfl
    rw [h0, hb] at h
    simpa using h
  refine ⟨hmain, fun hq => ?_, ?_, ?_⟩
  · have hb := quiescent_busy hq
    omega
  · intro s1 s2 w u hw hstep
    simp only [step, hw] at hstep
    cases hstep
    exact ⟨rfl, rfl, get?_set_self hw _⟩
  · intro s1 s2 w u hw hv hstep
    simp only [step, hw] at hstep
    rw [if_pos hv] at hstep
    cases hstep
    exact ⟨rfl, rfl, get?_set_self hw _⟩

/-- **C6.**  Over any single step of any run: the visited set only
grows (no element is ever removed), and for a URL already visited the
number of its copies in the frontier cannot increase — a visited URL is
never enqueued again. -/
theorem claim_C6 (e : Env) (s s' : CrawlState) (a : Action)
    (h : step e s a = some s') :
    s.visited ⊆ s'.visited
    ∧ ∀ u ∈ s.visited, s'.queue.count u ≤ s.queue.count u :=
  ⟨step_visited_sub h, fun u hu => step_queue_count h u hu⟩

/-- **C9.**  The same-domain filter accepts every link whose parsed
host is empty — in particular non-HTTP links such as `mailto:`,
`javascript:` and `tel:` URLs, whose netloc is empty — so such a link,
when not yet visited, is enqueued into the frontier by the anchor loop,
and once dequeued and claimed the worker proceeds to fetch it. -/
theorem claim_C9 (d : Str) (e : Env) (s : CrawlState) (w : ℕ) (u hr : Str)
    (p : List Str) :
    is_internal_link (str "mailto:someone@example.com") d = true
    ∧ is_internal_link (str "javascript:void(0)") d = true
    ∧ is_internal_link (str "tel:+15551234") d = true
    ∧ (∀ link, (urlparse link).netloc = [] → is_internal_link link d = true)
    ∧ (s.workers.get? w = some (.enqueuing u (hr :: p)) →
        (urlparse (e.canon u hr)).netloc = [] →
        e.canon u hr ∉ s.visited →
        ∃ s1, step e s (.enqStep w) = some s1
          ∧ s1.queue = s.queue ++ [e.canon u hr])
    ∧ (s.workers.get? w = some (.gotUrl u) → u ∉ s.visited →
        ∃ s1, step e s (.claim w) = some s1
          ∧ s1.workers.get? w = some (.fetching u)) := by
  refine ⟨decide_eq_true (Or.inl (by decide)),
          decide_eq_true (Or.inl (by decide)),
          decide_eq_true (Or.inl (by decide)),
          fun link hl => decide_eq_true (Or.inl hl), ?_, ?_⟩
  · intro hw hnet hnv
    have hint : is_internal_link (e.canon u hr) e.domain = true :=
      decide_eq_true (Or.inl hnet)
    have hstep1 : step e s (.enqStep w) = some
        { s with queue := s.queue ++ [e.canon u hr], puts := s.puts + 1,
                 workers := s.workers.set w (.enqueuing u p) } := by
      simp only [step, hw]
      rw [if_pos ⟨hint, hnv⟩]
    exact ⟨_, hstep1, rfl⟩
  · intro hw hnv
    have hstep1 : step e s (.claim w) = some
        { s with visited := u :: s.visited,
                 workers := s.workers.set w (.fetching u) } := by
      simp only [step, hw]
      rw [if_neg hnv]
    exact ⟨_, hstep1, get?_set_self hw _⟩

end Crawl


namespace Crawl

open Scraper

/-- **C4.**  Fragment-only differences collapse to one canonical URL:
the fragment-stripping canonicalisation identifies any two URLs that
differ only in their fragment; every URL an anchor-loop step enqueues
is the fragment-stripped form of the href resolved against the page
URL; and the dedup gate then grants that canonical URL at most once, so
the page is visited at most once for both spellings. -/
theorem claim_C4 (u1 u2 : Str) (h : sameExceptFragment u1 u2) :
    stripFragment u1 = stripFragment u2
    ∧ (∀ (e : Env) (s s1 : CrawlState) (w : ℕ) (v hr : Str) (p : List Str),
        s.workers.get? w = some (Phase.enqueuing v (hr :: p)) →
        step e s (.enqStep w) = some s1 →
        ∀ x ∈ s1.queue, x ∈ s.queue ∨ x = stripFragment (e.resolve v hr))
    ∧ (∀ (e : Env) (acts : List Action),
        wins e (initState e) acts (stripFragment u1) ≤ 1
        ∧ wins e (initState e) acts (stripFragment u1)
            = wins e (initState e) acts (stripFragment u2)) := by
  obtain ⟨h1, h2, h3, h4, h5⟩ := h
  have hrec : ({ urlparse u1 with fragment := ([] : Str) } : ParseResult)
      = { urlparse u2 with fragment := ([] : Str) } := by
    calc ({ urlparse u1 with fragment := ([] : Str) } : ParseResult)
        = ⟨(urlparse u1).scheme, (urlparse u1).netloc, (urlparse u1).path,
           (urlparse u1).params, (urlparse u1).query, []⟩ := rfl
      _ = ⟨(urlparse u2).scheme, (urlparse u2).netloc, (urlparse u2).path,
           (urlparse u2).params, (urlparse u2).query, []⟩ := by
          rw [h1, h2, h3, h4, h5]
      _ = { urlparse u2 with fragment := ([] : Str) } := rfl
  have hstrip : stripFragment u1 = stripFragment u2 := congrArg geturl hrec
  refine ⟨hstrip, ?_, ?_⟩
  · intro e s s1 w v hr p hw hstep x hx
    rcases step_cases hstep with
        ⟨w', u', rest, ha, hw', hq, rfl⟩ | ⟨w', u', ha, hw', hv, rfl⟩ |
        ⟨w', u', ha, hw', hv, rfl⟩ | ⟨w', u', ha, hw', rfl⟩ | ⟨w', u', ha, hw', rfl⟩ |
        ⟨w', u', hr', p', ha, hw', hint, hnv, rfl⟩ |
        ⟨w', u', hr', p', ha, hw', hni, rfl⟩ | ⟨w', u', ha, hw', rfl⟩ <;>
      cases ha
    · -- enqueued branch
      rw [hw] at hw'
      have heq := Option.some.inj hw'
      injection heq with he1 he2
      subst he1
      injection he2 with he3 he4
      subst he3
      rcases List.mem_append.mp hx with hx | hx
      · exact Or.inl hx
      · rcases List.mem_singleton.mp hx with rfl
        exact Or.inr rfl
    · -- skipped branch
      exact Or.inl hx
  · intro e acts
    exact ⟨wins_le_one acts _ _, by rw [hstrip]⟩

end Crawl

namespace Savers

open Scraper

/-- A markdown write survives any pattern of other-format failures:
`save_content` attempts every configured format independently. -/
theorem save_content_markdown (mdify pdfRender : Str → Str)
    (rands : ℕ → Fin 6 → Fin 10) (fail : Str → Bool) (url html dir : Str) :
    ∀ (formats : List Str) (i : ℕ),
      str "markdown" ∈ formats → fail (str "markdown") = false →
      ∃ j, markdownWrite mdify (rands j) url html dir
        ∈ save_content mdify pdfRender rands fail url html dir formats i
  | [], _, hmem, _ => absurd hmem (List.not_mem_nil _)
  | f :: fs, i, hmem, hnf => by
      rcases List.mem_cons.mp hmem with rfl | hmem'
      · refine ⟨i, ?_⟩
        simp only [save_content]
        rw [if_pos (by decide : str "markdown" ∈ saverKeys)]
        rw [hnf]
        simp only [Bool.false_eq_true, if_false]
        exact List.mem_cons_self _ _
      · obtain ⟨j, hj⟩ := save_content_markdown mdify pdfRender rands fail
          url html dir fs (i + 1) hmem' hnf
        refine ⟨j, ?_⟩
        simp only [save_content]
        by_cases h1 : f ∈ saverKeys
        · rw [if_pos h1]
          by_cases h2 : fail f = true
          · rw [if_pos h2]
            exact hj
          · rw [if_neg h2]
            exact List.mem_cons_of_mem _ hj
        · rw [if_neg h1]
          exact hj

/-- Every configured format whose own saver does not raise gets its
file written, whatever the other formats' savers do: the `try/except`
around each call makes the loop attempt each remaining format
independently. -/
theorem save_content_attempts (mdify pdfRender : Str → Str)
    (rands : ℕ → Fin 6 → Fin 10) (fail : Str → Bool) (url html dir : Str) :
    ∀ (formats : List Str) (i : ℕ) (f : Str),
      f ∈ formats → f ∈ saverKeys → fail f = false →
      ∃ j, saverWrite mdify pdfRender (rands j) f url html dir
        ∈ save_content mdify pdfRender rands fail url html dir formats i
  | [], _, _, hmem, _, _ => absurd hmem (List.not_mem_nil _)
  | g :: fs, i, f, hmem, hkey, hnf => by
      rcases List.mem_cons.mp hmem with rfl | hmem'
      · refine ⟨i, ?_⟩
        simp only [save_content]
        rw [if_pos hkey, hnf]
        simp only [Bool.false_eq_true, if_false]
        exact List.mem_cons_self _ _
      · obtain ⟨j, hj⟩ := save_content_attempts mdify pdfRender rands fail
          url html dir fs (i + 1) f hmem' hkey hnf
        refine ⟨j, ?_⟩
        simp only [save_content]
        by_cases h1 : g ∈ saverKeys
        · rw [if_pos h1]
          by_cases h2 : fail g = true
          · rw [if_pos h2]
            exact hj
          · rw [if_neg h2]
            exact List.mem_cons_of_mem _ hj
        · rw [if_neg h1]
          exact hj

/-- **C7.**  A save error in one format never prevents the remaining
formats from being attempted and never aborts the worker: each saver
call is wrapped in its own `try/except` inside the `save_content` loop.
In general, **every** configured known format whose own saver does not
raise gets its file written, whatever the other formats' savers do
(first conjunct, quantified over all formats, so also HTML or PDF
surviving a Markdown failure); the Markdown saver in particular
(second); and concretely a failing PDF saver still leaves exactly the
Markdown file for `[pdf, markdown]` (third), while a failing Markdown
saver still leaves the HTML and PDF files for `[markdown, html, pdf]`
(fourth). -/
theorem claim_C7 (mdify pdfRender : Str → Str) (rands : ℕ → Fin 6 → Fin 10)
    (fail : Str → Bool) (url html dir : Str) (formats : List Str) (i : ℕ) :
    (∀ f ∈ formats, f ∈ saverKeys → fail f = false →
      ∃ j, saverWrite mdify pdfRender (rands j) f url html dir
        ∈ save_content mdify pdfRender rands fail url html dir formats i)
    ∧ (str "markdown" ∈ formats → fail (str "markdown") = false →
      ∃ j, markdownWrite mdify (rands j) url html dir
        ∈ save_content mdify pdfRender rands fail url html dir formats i)
    ∧ (fail (str "pdf") = true → fail (str "markdown") = false →
        save_content mdify pdfRender rands fail url html dir
            [str "pdf", str "markdown"] i
          = [markdownWrite mdify (rands (i + 1)) url html dir])
    ∧ (fail (str "markdown") = true → fail (str "html") = false →
        fail (str "pdf") = false →
        save_content mdify pdfRender rands fail url html dir
            [str "markdown", str "html", str "pdf"] i
          = [htmlWrite (rands (i + 1)) url html dir,
             pdfWrite pdfRender (rands (i + 2)) url html dir]) := by
  refine ⟨?_, ?_, ?_, ?_⟩
  · exact fun f hmem hkey hnf => save_content_attempts mdify pdfRender rands
      fail url html dir formats i f hmem hkey hnf
  · exact fun hmem hnf => save_content_markdown mdify pdfRender rands fail
      url html dir formats i hmem hnf
  · intro hpdf hmd
    simp only [save_content]
    rw [if_pos (by decide : str "pdf" ∈ saverKeys), hpdf]
    simp only [if_true]
    rw [if_pos (by decide : str "markdown" ∈ saverKeys), hmd]
    simp only [Bool.false_eq_true, if_false]
    rfl
  · intro hmd hhtml hpdf
    simp only [save_content]
    rw [if_pos (by decide : str "markdown" ∈ saverKeys), hmd]
    simp only [if_true]
    rw [if_pos (by decide : str "html" ∈ saverKeys), hhtml]
    simp only [Bool.false_eq_true, if_false]
    rw [if_pos (by decide : str "pdf" ∈ saverKeys), hpdf]
    simp only [Bool.false_eq_true, if_false]
    rfl

end Savers

namespace Savers

open Scraper

theorem splitOn_ne_nil (sep : Char) : ∀ p : Str, splitOn sep p ≠ []
  | [] => by simp [splitOn]
  | c :: cs => by
      simp only [splitOn]
      rcases h : splitOn sep cs with _ | ⟨r, rs⟩
      · simp
      · by_cases hc : c = sep <;> simp [hc]

theorem splitOn_singleton (sep : Char) :
    ∀ (p r : Str), splitOn sep p = [r] → r = p
  | [], r, h => by
      simp only [splitOn] at h
      exact (List.cons.inj h).1.symm
  | c :: cs, r, h => by
      simp only [splitOn] at h
      rcases h2 : splitOn sep cs with _ | ⟨r', rs'⟩
      · exact absurd h2 (splitOn_ne_nil sep cs)
      · rw [h2] at h
        dsimp only at h
        by_cases hc : c = sep
        · rw [if_pos hc] at h
          obtain ⟨-, h4⟩ := List.cons.inj h
          cases h4
        · rw [if_neg hc] at h
          obtain ⟨h3, h4⟩ := List.cons.inj h
          subst h4
          have := splitOn_singleton sep cs r' h2
          subst this
          exact h3.symm

theorem splitOn_length_of_mem (sep : Char) :
    ∀ p : Str, sep ∈ p → 2 ≤ (splitOn sep p).length
  | [], h => absurd h (List.not_mem_nil _)
  | c :: cs, h => by
      simp only [splitOn]
      rcases h2 : splitOn sep cs with _ | ⟨r, rs⟩
      · exact absurd h2 (splitOn_ne_nil sep cs)
      · dsimp only
        rcases List.mem_cons.mp h with rfl | hmem
        · rw [if_pos rfl]
          simp
        · have := splitOn_length_of_mem sep cs hmem
          rw [h2] at this
          simp only [List.length_cons] at this
          by_cases hc : c = sep
          · rw [if_pos hc]
            simp
          · rw [if_neg hc]
            simp only [List.length_cons]
            omega

theorem getLast?_mem_of_eq {l : Str} {a : Char} (h : l.getLast? = some a) :
    a ∈ l := by
  rcases List.eq_nil_or_concat l with rfl | ⟨L, b, rfl⟩
  · cases h
  · rw [List.concat_eq_append, List.getLast?_concat] at h
    cases h
    rw [List.concat_eq_append]
    exact List.mem_append_right _ (List.mem_singleton.mpr rfl)

theorem getLastD_of_ne_nil {l : List Str} (h : l ≠ []) (a b : Str) :
    l.getLastD a = l.getLastD b := by
  rcases List.eq_nil_or_concat l with rfl | ⟨L, x, rfl⟩
  · exact absurd rfl h
  · rw [List.concat_eq_append]
    rw [List.getLastD_eq_getLast?, List.getLastD_eq_getLast?,
      List.getLast?_concat]
    rfl

/-- Characterisation of the placeholder condition of
`get_base_filename`: the last `/`-segment of a path is empty iff the
path is empty or ends with `/`. -/
theorem lastSegment_eq_nil_iff :
    ∀ p : Str, lastSegment p = [] ↔ (p = [] ∨ p.getLast? = some '/')
  | [] => by
      simp [lastSegment, splitOn]
  | c :: cs => by
      simp only [lastSegment, splitOn]
      rcases h2 : splitOn '/' cs with _ | ⟨r, rs⟩
      · exact absurd h2 (splitOn_ne_nil '/' cs)
      · dsimp only
        have ih := lastSegment_eq_nil_iff cs
        simp only [lastSegment, h2] at ih
        by_cases hc : c = '/'
        · rw [if_pos hc]
          rw [List.getLastD_cons]
          rcases hcs : cs with _ | ⟨c2, cs2⟩
          · -- cs = [] : both sides true
            subst hcs
            simp only [splitOn] at h2
            obtain ⟨rfl, rfl⟩ := List.cons.inj h2
            subst hc
            simp
          · -- cs nonempty
            subst hcs
            constructor
            · intro hl
              right
              rw [List.getLast?_cons_cons]
              rcases ih.mp hl with h | h
              · cases h
              · exact h
            · intro h
              refine ih.mpr ?_
              rcases h with h | h
              · cases h
              · rw [List.getLast?_cons_cons] at h
                exact Or.inr h
        · rw [if_neg hc]
          rcases hrs : rs with _ | ⟨r1, rs1⟩
          · -- splitOn cs = [r] : r = cs, no '/' in cs
            subst hrs
            have hr : r = cs := splitOn_singleton '/' cs r h2
            subst hr
            simp only [List.getLastD]
            constructor
            · intro hl
              cases hl
            · intro h
              rcases h with h | h
              · cases h
              · -- c :: cs ends with '/', so '/' ∈ c :: cs; but c ≠ '/'
                -- and cs has no '/': contradiction with splitOn cs = [cs]
                exfalso
                have hmem : '/' ∈ c :: r := getLast?_mem_of_eq h
                rcases List.mem_cons.mp hmem with hh | hh
                · exact hc hh.symm
                · have := splitOn_length_of_mem '/' r hh
                  rw [h2] at this
                  simp at this
          · -- splitOn cs has ≥ 2 chunks
            subst hrs
            rw [List.getLastD_cons]
            have hcs : cs ≠ [] := by
              intro hcs
              subst hcs
              simp only [splitOn] at h2
              cases (List.cons.inj h2).2
            have hind : (r1 :: rs1).getLastD (c :: r)
                = (r1 :: rs1).getLastD r :=
              getLastD_of_ne_nil (by simp) _ _
            rw [hind]
            rw [← List.getLastD_cons ([] : Str) r]
            constructor
            · intro hl
              right
              rcases hcs2 : cs with _ | ⟨c2, cs2⟩
              · exact absurd hcs2 hcs
              · subst hcs2
                rw [List.getLast?_cons_cons]
                rcases ih.mp hl with h | h
                · cases h
                · exact h
            · intro h
              refine ih.mpr ?_
              rcases h with h | h
              · cases h
              · rcases hcs2 : cs with _ | ⟨c2, cs2⟩
                · exact absurd hcs2 hcs
                · subst hcs2
                  rw [List.getLast?_cons_cons] at h
                  exact Or.inr h

end Savers

namespace Savers

open Scraper

/-- **C8, counterexample.**  The claim says the random placeholder is
used when **and only when** the URL's path is empty or root.  For
`https://example.com/docs/` the path is `/docs/` — neither empty nor
root — yet `path.split('/')[-1]` is empty, so the placeholder is used:
`get_base_filename` (with the random draw fixed to zeros) returns
`index_000000`. -/
theorem claim_C8_counterexample :
    get_base_filename (fun _ => (0 : Fin 10)) (str "https://example.com/docs/")
      = str "index_000000"
    ∧ (urlparse (str "https://example.com/docs/")).path ≠ []
    ∧ (urlparse (str "https://example.com/docs/")).path ≠ str "/" := by
  refine ⟨by decide, by decide, by decide⟩

/-- **C8, amended.**  The base filename used by every saver is the last
`/`-segment of the URL's parsed path whenever that segment is
non-empty, and the `index_` + six-random-digits placeholder is used
when, and only when, that last segment is empty — equivalently, when
the path is empty **or ends with a slash** (which includes the root
path `/` but also e.g. `/docs/`). -/
theorem claim_C8 (rand : Fin 6 → Fin 10) (url : Str) :
    (lastSegment (urlparse url).path = [] ↔
      ((urlparse url).path = [] ∨ (urlparse url).path.getLast? = some '/'))
    ∧ (lastSegment (urlparse url).path ≠ [] →
        get_base_filename rand url = lastSegment (urlparse url).path)
    ∧ (lastSegment (urlparse url).path = [] →
        get_base_filename rand url = str "index_" ++ digitsOf rand
          ∧ (digitsOf rand).length = 6
          ∧ ∀ c ∈ digitsOf rand, c.isDigit = true) := by
  refine ⟨lastSegment_eq_nil_iff _, fun hne => ?_, fun he => ⟨?_, rfl, ?_⟩⟩
  · simp only [get_base_filename]
    rw [if_neg hne]
  · simp only [get_base_filename]
    rw [if_pos he]
  · intro c hc
    rcases List.mem_map.mp hc with ⟨i, -, rfl⟩
    have hall : ∀ v : Fin 10, (Nat.digitChar v).isDigit = true := by decide
    exact hall (rand i)

/-- **C10.**  Base-filename generation is nondeterministic for every
URL whose path's last segment is empty (root path, or any path ending
in `/`): each call to `get_base_filename` draws fresh random digits, so
two calls on the same URL can differ; the Markdown and HTML savers each
call it independently, so the files of one such page need not share a
common base filename. -/
theorem claim_C10 (mdify : Str → Str) (url html dir : Str)
    (hempty : lastSegment (urlparse url).path = []) :
    ∃ r1 r2 : Fin 6 → Fin 10,
      get_base_filename r1 url ≠ get_base_filename r2 url
      ∧ (markdownWrite mdify r1 url html dir).path
          = dir ++ '/' :: get_base_filename r1 url ++ str ".md"
      ∧ (htmlWrite r2 url html dir).path
          = dir ++ '/' :: get_base_filename r2 url ++ str ".html" := by
  refine ⟨fun _ => 0, fun _ => 1, ?_, rfl, rfl⟩
  have hb1 : get_base_filename (fun _ => (0 : Fin 10)) url
      = str "index_" ++ digitsOf (fun _ => 0) := by
    simp only [get_base_filename]
    rw [if_pos hempty]
  have hb2 : get_base_filename (fun _ => (1 : Fin 10)) url
      = str "index_" ++ digitsOf (fun _ => 1) := by
    simp only [get_base_filename]
    rw [if_pos hempty]
  rw [hb1, hb2]
  intro heq
  have hd := List.append_cancel_left heq
  exact absurd hd (by decide)

end Savers


namespace Witness

open Scraper Crawl Savers

theorem reaches_e0_sub : ∀ u, Reaches e0 u → u ∈ R0 := by
  intro u h
  induction h with
  | seed => exact List.mem_singleton.mpr rfl
  | link _ hm _ _ => exact absurd hm (List.not_mem_nil _)

/-- Witness for C1: on the concrete race of two workers over `B0`, the
gate is attempted twice and grants exactly once. -/
theorem claim_C1_witness :
    wins e1 (initState e1) tr1 B0 ≤ 1
    ∧ wins e1 (initState e1) tr1 B0 = 1 := by
  have h := claim_C1 e1 tr1 B0 (by decide)
  exact ⟨h.1, h.2 (by decide)⟩

/-- Witness for C2 at the one-page site: the bound, the duplicate-free
visited set, and — the run being quiescent and failure-free — join plus
exactly-once coverage. -/
theorem claim_C2_witness :
    tr0.length ≤ measureFn e0 R0 (initState e0)
    ∧ s0.visited.Nodup
    ∧ (quiescent s0 → s0.puts = s0.dones
        ∧ (noFail tr0 → ∀ u, Reaches e0 u ↔ u ∈ s0.visited)) := by
  have h := claim_C2 e0 R0 tr0 s0 (by decide) reaches_e0_sub (by decide)
    (by decide)
  exact ⟨h.1, h.2.2.1, h.2.2.2⟩

/-- Witness for C3 at the end state of the one-page crawl. -/
theorem claim_C3_witness :
    (urlparse A0).netloc = [] ∨ (urlparse A0).netloc = e0.domain :=
  claim_C3 e0 tr0 s0 (by decide) A0 (Or.inr (by decide))

/-- Witness for C4 on two fragment-only spellings of one page URL. -/
theorem claim_C4_witness : stripFragment F1 = stripFragment F2 :=
  (claim_C4 F1 F2 (by decide)).1

/-- Witness for C5 at the end state of the one-page crawl. -/
theorem claim_C5_witness :
    s0.dones + busy s0 = dequeues e0 (initState e0) tr0
    ∧ (quiescent s0 → s0.dones = dequeues e0 (initState e0) tr0) := by
  have h := claim_C5 e0 tr0 s0 (by decide)
  exact ⟨h.1, h.2.1⟩

/-- Witness for C6 on the concrete `fetchOk` step of the crawl. -/
theorem claim_C6_witness :
    sA.visited ⊆ sB.visited
    ∧ ∀ u ∈ sA.visited, sB.queue.count u ≤ sA.queue.count u :=
  claim_C6 e0 sA sB (.fetchOk 0) (by decide)

/-- Witness for C7: with a failing PDF saver and both formats
requested, the Markdown file is still written (and is the whole
output); with a failing Markdown saver, the HTML and PDF files are
still written. -/
theorem claim_C7_witness :
    (∃ j : ℕ, saverWrite id id rZero (str "markdown") (str "u") (str "h")
        (str "d")
      ∈ save_content id id (fun _ => rZero) (fun f => decide (f = str "pdf"))
          (str "u") (str "h") (str "d") [str "pdf", str "markdown"] 0)
    ∧ save_content id id (fun _ => rZero) (fun f => decide (f = str "pdf"))
          (str "u") (str "h") (str "d") [str "pdf", str "markdown"] 0
        = [markdownWrite id rZero (str "u") (str "h") (str "d")]
    ∧ save_content id id (fun _ => rZero)
          (fun f => decide (f = str "markdown"))
          (str "u") (str "h") (str "d")
          [str "markdown", str "html", str "pdf"] 0
        = [htmlWrite rZero (str "u") (str "h") (str "d"),
           pdfWrite id rZero (str "u") (str "h") (str "d")] := by
  have h := claim_C7 id id (fun _ => rZero) (fun f => decide (f = str "pdf"))
    (str "u") (str "h") (str "d") [str "pdf", str "markdown"] 0
  have h2 := claim_C7 id id (fun _ => rZero)
    (fun f => decide (f = str "markdown"))
    (str "u") (str "h") (str "d") [str "markdown", str "html", str "pdf"] 0
  refine ⟨?_, h.2.2.1 (by decide) (by decide),
          h2.2.2.2 (by decide) (by decide) (by decide)⟩
  obtain ⟨j, hj⟩ := h.1 (str "markdown") (by decide) (by decide) (by decide)
  exact ⟨j, hj⟩

/-- Witness for C8: `/docs/guide` yields `guide`; the root path of
`https://example.com/` satisfies the placeholder condition. -/
theorem claim_C8_witness :
    get_base_filename rZero (str "https://example.com/docs/guide")
      = lastSegment (urlparse (str "https://example.com/docs/guide")).path
    ∧ ((urlparse (str "https://example.com/")).path = []
        ∨ (urlparse (str "https://example.com/")).path.getLast? = some '/') := by
  have h1 := claim_C8 rZero (str "https://example.com/docs/guide")
  have h2 := claim_C8 rZero (str "https://example.com/")
  exact ⟨h1.2.1 (by decide), h2.1.mp (by decide)⟩

/-- Witness for C9: the `mailto:` link passes the filter, is enqueued
by the anchor loop, and once claimed proceeds to a fetch attempt. -/
theorem claim_C9_witness :
    is_internal_link M0 (str "example.com") = true
    ∧ (∃ s1, step eM sM (.enqStep 0) = some s1
        ∧ s1.queue = sM.queue ++ [eM.canon A0 M0])
    ∧ (∃ s1, step eM sG (.claim 0) = some s1
        ∧ s1.workers.get? 0 = some (.fetching M0)) := by
  have h := claim_C9 (str "example.com") eM sM 0 A0 M0 []
  have h2 := claim_C9 (str "example.com") eM sG 0 M0 M0 []
  refine ⟨?_, ?_, ?_⟩
  · exact h.2.2.2.1 M0 (by decide)
  · exact h.2.2.2.2.1 (by decide) (by decide) (by decide)
  · exact h2.2.2.2.2.2 (by decide) (by decide)

/-- Witness for C10 at the trailing-slash URL `/docs/`. -/
theorem claim_C10_witness :
    ∃ r1 r2 : Fin 6 → Fin 10,
      get_base_filename r1 (str "https://example.com/docs/")
        ≠ get_base_filename r2 (str "https://example.com/docs/")
      ∧ (markdownWrite id r1 (str "https://example.com/docs/")
            (str "h") (str "d")).path
          = str "d" ++ '/' :: get_base_filename r1
              (str "https://example.com/docs/") ++ str ".md"
      ∧ (htmlWrite r2 (str "https://example.com/docs/")
            (str "h") (str "d")).path
          = str "d" ++ '/' :: get_base_filename r2
              (str "https://example.com/docs/") ++ str ".html" :=
  claim_C10 id (str "https://example.com/docs/") (str "h") (str "d") (by decide)

end Witness
